import Mathlib

/-!
Verification of the rebase-todo editor core (glitt).

The development shallowly embeds two Rust source files:
  src/editors/rebase/todo.rs   - the line model: RebaseTodoLine, its clap-based
                                 parser and its Display (serializer) impl;
  src/editors/rebase/editor.rs - the editable document: cursor navigation,
                                 swap reordering, action-key dispatch, save.

Strings are handled at the level of List Char so that every definition is
executable and kernel-reducible.  Rust char::is_whitespace is Unicode; the
embedding models the ASCII whitespace characters, which is exhaustive for
every input exercised by the theorems below.
-/

namespace Glitt

/-- Whitespace test used by trimming and splitting (models the ASCII fragment
of Rust char::is_whitespace). -/
def isWsChar (c : Char) : Bool :=
  c = ' ' || c = '\t' || c = '\n' || c = '\r'

/-- Drop trailing whitespace from a character list (models str::trim_end). -/
def trimRight (l : List Char) : List Char :=
  (l.reverse.dropWhile isWsChar).reverse

/-- Trim both ends of a character list (models str::trim). -/
def trimList (l : List Char) : List Char :=
  trimRight (l.dropWhile isWsChar)

/-- Models str::trim on strings. -/
def rustTrim (s : String) : String :=
  ⟨trimList s.data⟩

/-- True when the text begins with the comment marker (models
str::starts_with applied to the hash character). -/
def headIsHash : List Char → Bool
  | [] => false
  | c :: _ => c = '#'

/-- Whitespace splitter: accumulates the current word in order and emits it at
each whitespace run boundary, skipping empty words (models
str::split_whitespace). -/
def wordsGo (acc : List Char) : List Char → List (List Char)
  | [] => if acc.isEmpty then [] else [acc]
  | c :: cs =>
    if isWsChar c then
      if acc.isEmpty then wordsGo [] cs else acc :: wordsGo [] cs
    else
      wordsGo (acc ++ [c]) cs

/-- The whitespace-separated words of a string. -/
def wordsOf (s : String) : List String :=
  (wordsGo [] s.data).map (fun w => (⟨w⟩ : String))

/-- Split a character list at every newline; keeps interior empty segments
(first half of the model of str::lines). -/
def splitNL : List Char → List (List Char)
  | [] => [[]]
  | c :: cs =>
    if c = '\n' then [] :: splitNL cs
    else
      match splitNL cs with
      | [] => [[c]]
      | w :: ws => (c :: w) :: ws

/-- Drop a single trailing carriage return (str::lines strips it). -/
def dropLastCR (l : List Char) : List Char :=
  if l.getLast? = some '\r' then l.dropLast else l

/-- Models str::lines: split on newline, drop the final empty segment produced
by a trailing newline, strip one trailing carriage return per line. -/
def linesOf (s : String) : List String :=
  (let ls := splitNL s.data
   (if ls.getLast? = some ([] : List Char) then ls.dropLast else ls)).map
    (fun l => (⟨dropLastCR l⟩ : String))

/-- Join with newline separators and no trailing newline (models
Vec::join applied with a newline separator in RebaseEditor::save). -/
def joinNL : List String → String
  | [] => ""
  | [s] => s
  | s :: rest => s ++ "\n" ++ joinNL rest

/-- A token that clap would try to interpret as a flag: it starts with a dash
and is not the bare one-character dash (which clap accepts as a value). -/
def flagLike (s : String) : Bool :=
  match s.data with
  | '-' :: _ :: _ => true
  | _ => false

/-- The line model from todo.rs.  The Reword constructor is code of this
repository missing from src/: editor.rs constructs RebaseTodoLine::Reword
with a commit and a rest field, but the enum declaration in the provided
todo.rs predates it; its shape is taken from that construction site. -/
inductive RebaseTodoLine where
  | Comment (message : String)
  | Pick (commit : String) (rest : List String)
  | Edit (commit : String) (rest : List String)
  | Squash (commit : String) (rest : List String)
  | Fixup (commit : String) (rest : List String)
  | Exec (command : List String)
  | Drop (commit : String) (rest : List String)
  | Label (label : String) (rest : List String)
  | Reset (label : String) (rest : List String)
  | Merge (commit : Option String) (label : String)
  | UpdateRef (refname : String)
  | Reword (commit : String) (rest : List String)
  deriving DecidableEq

namespace RebaseTodoLine

/-- The Display impl from todo.rs.  Note that it prints only the commit or
label of the Pick, Edit, Squash, Fixup, Drop, Label and Reset variants: the
rest field is dropped.  The Reword case is missing from the provided src/
Display impl and is modelled after the pattern of the surrounding arms. -/
def display : RebaseTodoLine → String
  | Comment message => message
  | Pick commit _ => "pick " ++ commit
  | Edit commit _ => "edit " ++ commit
  | Squash commit _ => "squash " ++ commit
  | Fixup commit _ => "fixup " ++ commit
  | Exec command => "exec " ++ joinSp command
  | Drop commit _ => "drop " ++ commit
  | Label label _ => "label " ++ label
  | Reset label _ => "reset " ++ label
  | Merge (some c) label => "merge -c " ++ c ++ " " ++ label
  | Merge none label => "merge " ++ label
  | UpdateRef refname => "update-ref " ++ refname
  | Reword commit _ => "reword " ++ commit
where
  /-- Space join (models Vec::join with a space in the Exec arm). -/
  joinSp : List String → String
    | [] => ""
    | [s] => s
    | s :: rest => s ++ " " ++ joinSp rest

/-- Model of the clap derive for the commit-plus-trailing-rest variants
(Pick, Edit, Squash, Fixup, Drop) and the label-plus-trailing-rest variants
(Label, Reset): one required positional, then a trailing var-arg list that
absorbs every remaining token. -/
def parseCommitRest (mk : String → List String → RebaseTodoLine) :
    List String → Option RebaseTodoLine
  | [] => none
  | c :: rest => if flagLike c then none else some (mk c rest)

/-- Model of the clap derive for Exec: one trailing var-arg list. -/
def parseExec : List String → Option RebaseTodoLine
  | [] => some (Exec [])
  | c :: rest => if flagLike c then none else some (Exec (c :: rest))

/-- Model of the clap derive for UpdateRef: exactly one positional. -/
def parseUpdateRef : List String → Option RebaseTodoLine
  | [r] => if flagLike r then none else some (UpdateRef r)
  | _ => none

/-- Model of the clap derive for Merge: an optional dash-c flag taking one
value, placed before or after the single required label positional.  Token
shapes clap would reject (extra positionals, a flag with no value, unknown
flags) yield none. -/
def parseMerge : List String → Option RebaseTodoLine
  | [l] => if flagLike l then none else some (Merge none l)
  | [a, b, c] =>
    if (a = "-c" || a = "--C") && !flagLike b && !flagLike c then
      some (Merge (some b) c)
    else if (b = "-c" || b = "--C") && !flagLike a && !flagLike c then
      some (Merge (some c) a)
    else none
  | _ => none

/-- Model of RebaseTodoLineParser::try_parse_from over an already-tokenized
line: dispatch on the subcommand keyword or its single-letter alias exactly as
declared in the todo.rs enum, none on any clap parse failure. -/
def parseTokens : List String → Option RebaseTodoLine
  | [] => none
  | kw :: args =>
    if kw = "pick" || kw = "p" then parseCommitRest Pick args
    else if kw = "edit" || kw = "e" then parseCommitRest Edit args
    else if kw = "squash" || kw = "s" then parseCommitRest Squash args
    else if kw = "fixup" || kw = "f" then parseCommitRest Fixup args
    else if kw = "exec" || kw = "x" then parseExec args
    else if kw = "drop" || kw = "d" then parseCommitRest Drop args
    else if kw = "label" || kw = "l" then parseCommitRest Label args
    else if kw = "reset" || kw = "r" then parseCommitRest Reset args
    else if kw = "merge" || kw = "m" then parseMerge args
    else if kw = "update-ref" || kw = "u" then parseUpdateRef args
    else none

/-- RebaseTodoLine::parse from todo.rs: trim, treat empty or hash-leading
text as a Comment holding the trimmed text, otherwise try the structured
parser on the whitespace-split tokens and fall back to a Comment holding the
trimmed text. -/
def parse (line : String) : RebaseTodoLine :=
  let t : List Char := trimList line.data
  if headIsHash t || t.isEmpty then Comment ⟨t⟩
  else
    match parseTokens ((wordsGo [] t).map (fun w => (⟨w⟩ : String))) with
    | some l => l
    | none => Comment ⟨t⟩

/-- The comment test used throughout editor.rs
(matches! with the Comment pattern). -/
def isComment : RebaseTodoLine → Bool
  | Comment _ => true
  | _ => false

/-- Modelled from the spec: RebaseTodoLine::get_commit is called from
editor.rs but its definition is code of this repository missing from src/.
Section 4.4 of the spec fixes it: the commit identifier is present for Pick,
Edit, Squash, Fixup and Drop and absent otherwise. -/
def get_commit : RebaseTodoLine → Option String
  | Pick commit _ => some commit
  | Edit commit _ => some commit
  | Squash commit _ => some commit
  | Fixup commit _ => some commit
  | Drop commit _ => some commit
  | _ => none

/-- Modelled from the spec: RebaseTodoLine::get_rest is called from editor.rs
but its definition is code of this repository missing from src/.  The spec
calls it the current line's trailing-token field, which exists on the
commit-carrying variants, on Label and Reset, and on Reword. -/
def get_rest : RebaseTodoLine → Option (List String)
  | Pick _ rest => some rest
  | Edit _ rest => some rest
  | Squash _ rest => some rest
  | Fixup _ rest => some rest
  | Drop _ rest => some rest
  | Label _ rest => some rest
  | Reset _ rest => some rest
  | Reword _ rest => some rest
  | _ => none

end RebaseTodoLine

/-- The editable document from editor.rs: the parsed lines and the ListState
selection.  The path, repository and terminal collaborators are I/O-only and
carry no document logic, so they are outside the embedding; save is modelled
as the string the file write would receive. -/
structure RebaseEditor where
  lines : List RebaseTodoLine
  selected? : Option Nat
  deriving DecidableEq

namespace RebaseEditor

/-- Default line used to spell out in-range list indexing (the Rust code
indexes the vector directly; every modelled read happens at an index the
surrounding code keeps in bounds, which the theorems track with a
well-formedness hypothesis). -/
def dflt : RebaseTodoLine := .Comment ""

/-- RebaseEditor::selected from editor.rs
(ListState selection with zero fallback). -/
def sel (ed : RebaseEditor) : Nat :=
  ed.selected?.getD 0

/-- The reachable-state bound on the selection: an empty document, or a
selection inside the line vector.  Every constructor and mutation below
preserves it; the Rust code relies on it for its unchecked indexing. -/
def wf (ed : RebaseEditor) : Prop :=
  ed.lines = [] ∨ ed.sel < ed.lines.length

instance (ed : RebaseEditor) : Decidable ed.wf := by
  unfold wf; infer_instance

/-- Models Iterator::position: index of the first element satisfying the
predicate. -/
def positionIdx (p : RebaseTodoLine → Bool) : List RebaseTodoLine → Option Nat
  | [] => none
  | a :: t => if p a then some 0 else (positionIdx p t).map (· + 1)

/-- RebaseEditor::new from editor.rs: parse every line of the file content,
select the first non-Comment line, falling back to index zero. -/
def new (content : String) : RebaseEditor :=
  let lines := (linesOf content).map RebaseTodoLine.parse
  let initial := (positionIdx (fun l => !l.isComment) lines).getD 0
  ⟨lines, some initial⟩

/-- The scan loop shared by move_cursor_down and swap_down: step the index
forward circularly at most fuel times and report the first index holding a
non-Comment line. -/
def scanDown (lines : List RebaseTodoLine) (len idx : Nat) : Nat → Option Nat
  | 0 => none
  | fuel + 1 =>
    let idx2 := (idx + 1) % len
    if (lines.getD idx2 dflt).isComment then scanDown lines len idx2 fuel
    else some idx2

/-- The scan loop shared by move_cursor_up and swap_up: step the index
backward with wrap-around at most fuel times and report the first index
holding a non-Comment line. -/
def scanUp (lines : List RebaseTodoLine) (len idx : Nat) : Nat → Option Nat
  | 0 => none
  | fuel + 1 =>
    let idx2 := if idx = 0 then len - 1 else idx - 1
    if (lines.getD idx2 dflt).isComment then scanUp lines len idx2 fuel
    else some idx2

/-- RebaseEditor::move_cursor_down from editor.rs. -/
def move_cursor_down (ed : RebaseEditor) : RebaseEditor :=
  let len := ed.lines.length
  if len = 0 then ed
  else
    match scanDown ed.lines len ed.sel len with
    | some i => { ed with selected? := some i }
    | none => ed

/-- RebaseEditor::move_cursor_up from editor.rs. -/
def move_cursor_up (ed : RebaseEditor) : RebaseEditor :=
  let len := ed.lines.length
  if len = 0 then ed
  else
    match scanUp ed.lines len ed.sel len with
    | some i => { ed with selected? := some i }
    | none => ed

/-- Vec::swap on a list: exchange the elements at the two indices. -/
def listSwap (l : List RebaseTodoLine) (i j : Nat) : List RebaseTodoLine :=
  (l.set i (l.getD j dflt)).set j (l.getD i dflt)

/-- RebaseEditor::swap_down from editor.rs: scan as move_cursor_down, then
exchange the current line with the found line and select the target. -/
def swap_down (ed : RebaseEditor) : RebaseEditor :=
  let len := ed.lines.length
  if len = 0 then ed
  else
    let current := ed.sel
    match scanDown ed.lines len current len with
    | some i => ⟨listSwap ed.lines current i, some i⟩
    | none => ed

/-- RebaseEditor::swap_up from editor.rs. -/
def swap_up (ed : RebaseEditor) : RebaseEditor :=
  let len := ed.lines.length
  if len = 0 then ed
  else
    let current := ed.sel
    match scanUp ed.lines len current len with
    | some i => ⟨listSwap ed.lines current i, some i⟩
    | none => ed

/-- RebaseEditor::set_current_line from editor.rs writes through the
unchecked index lines_mut()[selected]; the none result models the Rust
out-of-bounds panic. -/
def set_current_line (ed : RebaseEditor) (line : RebaseTodoLine) :
    Option RebaseEditor :=
  if ed.sel < ed.lines.length then
    some { ed with lines := ed.lines.set ed.sel line }
  else none

/-- RebaseEditor::get_current_line from editor.rs
(checked vector access at the selection). -/
def get_current_line (ed : RebaseEditor) : Option RebaseTodoLine :=
  ed.lines.get? ed.sel

/-- RebaseEditor::save from editor.rs: the written file content is the
newline join of the Display form of every line, in order. -/
def save (ed : RebaseEditor) : String :=
  joinNL (ed.lines.map RebaseTodoLine.display)

/-- RebaseEditor::save_empty from editor.rs: the written file content is
empty regardless of the document. -/
def save_empty (_ : RebaseEditor) : String := ""

end RebaseEditor

/-- The six action keys dispatched in the Editing loop of editor.rs. -/
inductive ActionKey where
  | p | e | r | s | f | d
  deriving DecidableEq

/-- The line each action-key arm of RebaseEditor::run constructs, reusing the
commit and rest of the current line.  The r arm constructs Reword
(editor.rs line 379 and the on-screen instructions), not Reset. -/
def ActionKey.mkLine : ActionKey → String → List String → RebaseTodoLine
  | .p, commit, rest => .Pick commit rest
  | .e, commit, rest => .Edit commit rest
  | .r, commit, rest => .Reword commit rest
  | .s, commit, rest => .Squash commit rest
  | .f, commit, rest => .Fixup commit rest
  | .d, commit, rest => .Drop commit rest

/-- One action-key arm of the match in RebaseEditor::run: the arm fires only
when the current line resolves to a commit (the pattern pairs the key with
Some commit); it then rebuilds the line with the key's variant, the same
commit, and the current line's rest (empty when absent), and stores it with
set_current_line.  When no commit is available the event falls through to the
final no-op arm.  The none result models the set_current_line panic. -/
def applyActionKey (k : ActionKey) (ed : RebaseEditor) : Option RebaseEditor :=
  match (ed.get_current_line).bind RebaseTodoLine.get_commit with
  | none => some ed
  | some commit =>
    let rest := ((ed.get_current_line).bind RebaseTodoLine.get_rest).getD []
    ed.set_current_line (k.mkLine commit rest)

/-- Number of non-Comment (actionable) lines of a document. -/
def countActionable (lines : List RebaseTodoLine) : Nat :=
  (lines.filter (fun l => !l.isComment)).length

/-- Position reached after k forward circular steps from start
(the index sequence the down-scan of editor.rs visits). -/
def downPos (len start : Nat) : Nat → Nat
  | 0 => start
  | k + 1 => (downPos len start k + 1) % len

/-- One backward step with wrap-around, as written in move_cursor_up. -/
def stepUpIdx (len i : Nat) : Nat :=
  if i = 0 then len - 1 else i - 1

/-- Position reached after k backward steps from start
(the index sequence the up-scan of editor.rs visits). -/
def upPos (len start : Nat) : Nat → Nat
  | 0 => start
  | k + 1 => stepUpIdx len (upPos len start k)

/-- First k at or after k0 within fuel steps satisfying pred (the
specification-side notion of the nearest hit, written from the words of the
spec: the scan advances until it lands on a non-Comment line). -/
def nearestGo (pred : Nat → Bool) (k0 : Nat) : Nat → Option Nat
  | 0 => none
  | fuel + 1 => if pred k0 then some k0 else nearestGo pred (k0 + 1) fuel

/-- Distance (in forward circular steps, at least one, at most the document
length) to the nearest actionable line below the start index. -/
def nearestActionableDown (lines : List RebaseTodoLine) (start : Nat) :
    Option Nat :=
  nearestGo
    (fun k => !(lines.getD (downPos lines.length start k) RebaseEditor.dflt).isComment)
    1 lines.length

/-- Distance (in backward steps) to the nearest actionable line above the
start index. -/
def nearestActionableUp (lines : List RebaseTodoLine) (start : Nat) :
    Option Nat :=
  nearestGo
    (fun k => !(lines.getD (upPos lines.length start k) RebaseEditor.dflt).isComment)
    1 lines.length

/-- A canonical, fully parseable line shape: every field is a plain word
(nonempty, whitespace-free, not flag-like) and the trailing rest field is
empty.  These are exactly the variant values whose Display output parses
back; the Display impl drops nonempty rest fields, and Comment and the
unparsed Reword variant are excluded. -/
def canonicalLine : RebaseTodoLine → Bool
  | .Comment _ => false
  | .Pick c rest => plainWord c && rest.isEmpty
  | .Edit c rest => plainWord c && rest.isEmpty
  | .Squash c rest => plainWord c && rest.isEmpty
  | .Fixup c rest => plainWord c && rest.isEmpty
  | .Exec command => !command.isEmpty && command.all plainWord
  | .Drop c rest => plainWord c && rest.isEmpty
  | .Label l rest => plainWord l && rest.isEmpty
  | .Reset l rest => plainWord l && rest.isEmpty
  | .Merge c l =>
    plainWord l && (match c with | none => true | some cc => plainWord cc)
  | .UpdateRef r => plainWord r
  | .Reword _ _ => false
where
  /-- A single whitespace-free, nonempty, non-flag token. -/
  plainWord (s : String) : Bool :=
    !s.data.isEmpty && s.data.all (fun c => !isWsChar c) && !flagLike s

/-- The keyword and single-letter alias pairs declared on the todo.rs enum. -/
def aliasPairs : List (String × String) :=
  [("pick", "p"), ("edit", "e"), ("squash", "s"), ("fixup", "f"),
   ("exec", "x"), ("drop", "d"), ("label", "l"), ("reset", "r"),
   ("merge", "m"), ("update-ref", "u")]

/-- Space-separated concatenation of character-level words, the canonical
shape of every serialized non-Comment line. -/
def joinWordsC : List (List Char) → List Char
  | [] => []
  | [w] => w
  | w :: ws => w ++ ' ' :: joinWordsC ws


/-! Lemmas about the whitespace splitter and trimming. -/

theorem dropWhile_eq_self_of_head (l : List Char)
    (h : ∀ c ∈ l.head?, isWsChar c = false) : l.dropWhile isWsChar = l := by
  cases l with
  | nil => rfl
  | cons c cs =>
    have hc : isWsChar c = false := h c rfl
    simp [List.dropWhile_cons, hc]

theorem trimRight_of_all (l : List Char)
    (h : ∀ c ∈ l, isWsChar c = false) : trimRight l = l := by
  unfold trimRight
  rw [dropWhile_eq_self_of_head, List.reverse_reverse]
  intro c hc
  have : c ∈ l.reverse := by
    cases hr : l.reverse with
    | nil => simp [hr] at hc
    | cons a t => simp [hr] at hc; simp [hr, hc]
  exact h c (by simpa using this)

theorem trimRight_eq_self_iff_reverse (l : List Char) :
    trimRight l = l ↔ l.reverse.dropWhile isWsChar = l.reverse := by
  unfold trimRight
  constructor
  · intro h
    have := congrArg List.reverse h
    simpa using this
  · intro h
    simp [h]

theorem trimRight_cons_of (c : Char) (l : List Char)
    (hl : trimRight l = l) (hlne : l ≠ []) : trimRight (c :: l) = c :: l := by
  have hrev : l.reverse.dropWhile isWsChar = l.reverse :=
    (trimRight_eq_self_iff_reverse l).mp hl
  have hne : ¬(l.reverse.dropWhile isWsChar).isEmpty := by
    rw [hrev]
    simpa [List.isEmpty_iff] using hlne
  rw [trimRight_eq_self_iff_reverse]
  rw [List.reverse_cons, List.dropWhile_append]
  simp [hne, hrev]
  intro hx
  exact absurd hx hlne

theorem trimRight_append (w l : List Char)
    (_hw : ∀ c ∈ w, isWsChar c = false)
    (hl : trimRight l = l) (hlne : l ≠ []) : trimRight (w ++ l) = w ++ l := by
  have hrev : l.reverse.dropWhile isWsChar = l.reverse :=
    (trimRight_eq_self_iff_reverse l).mp hl
  have hne : ¬(l.reverse.dropWhile isWsChar).isEmpty := by
    rw [hrev]
    simpa [List.isEmpty_iff] using hlne
  rw [trimRight_eq_self_iff_reverse, List.reverse_append, List.dropWhile_append]
  simp [hne, hrev]
  intro hx
  exact absurd hx hlne

theorem wordsGo_append (w : List Char) (hw : ∀ c ∈ w, isWsChar c = false)
    (acc rest : List Char) :
    wordsGo acc (w ++ rest) = wordsGo (acc ++ w) rest := by
  induction w generalizing acc with
  | nil => simp
  | cons c w ih =>
    have hc : isWsChar c = false := hw c (by simp)
    have hw2 : ∀ x ∈ w, isWsChar x = false := fun x hx => hw x (by simp [hx])
    show wordsGo acc (c :: (w ++ rest)) = _
    rw [show wordsGo acc (c :: (w ++ rest)) = wordsGo (acc ++ [c]) (w ++ rest) by
      simp [wordsGo, hc]]
    rw [ih hw2 (acc ++ [c])]
    simp

theorem wordsGo_joinWords (ws : List (List Char))
    (h : ∀ w ∈ ws, w ≠ [] ∧ ∀ c ∈ w, isWsChar c = false) :
    wordsGo [] (joinWordsC ws) = ws := by
  induction ws with
  | nil => rfl
  | cons w ws ih =>
    obtain ⟨hne, hplain⟩ := h w (by simp)
    have h2 : ∀ x ∈ ws, x ≠ [] ∧ ∀ c ∈ x, isWsChar c = false :=
      fun x hx => h x (by simp [hx])
    cases ws with
    | nil =>
      show wordsGo [] w = [w]
      rw [show w = w ++ [] by simp, wordsGo_append w hplain]
      simp [wordsGo, List.isEmpty_iff, hne]
    | cons w2 ws2 =>
      show wordsGo [] (w ++ ' ' :: joinWordsC (w2 :: ws2)) = w :: w2 :: ws2
      rw [wordsGo_append w hplain]
      rw [List.nil_append]
      rw [show wordsGo w (' ' :: joinWordsC (w2 :: ws2))
          = w :: wordsGo [] (joinWordsC (w2 :: ws2)) by
        simp [wordsGo, isWsChar, List.isEmpty_iff, hne]]
      rw [ih h2]

theorem joinWordsC_ne_nil (ws : List (List Char)) (hne : ws ≠ [])
    (h : ∀ w ∈ ws, w ≠ []) : joinWordsC ws ≠ [] := by
  cases ws with
  | nil => exact absurd rfl hne
  | cons w t =>
    cases t with
    | nil => exact h w (by simp)
    | cons a b =>
      show w ++ ' ' :: joinWordsC (a :: b) ≠ []
      simp

theorem head?_joinWordsC (w : List Char) (t : List (List Char)) (hw : w ≠ []) :
    (joinWordsC (w :: t)).head? = w.head? := by
  cases t with
  | nil => rfl
  | cons a b =>
    show (w ++ ' ' :: joinWordsC (a :: b)).head? = w.head?
    cases w with
    | nil => exact absurd rfl hw
    | cons c cs => rfl

theorem trim_joinWords (ws : List (List Char)) (hne : ws ≠ [])
    (h : ∀ w ∈ ws, w ≠ [] ∧ ∀ c ∈ w, isWsChar c = false) :
    trimList (joinWordsC ws) = joinWordsC ws := by
  have hdw : (joinWordsC ws).dropWhile isWsChar = joinWordsC ws := by
    apply dropWhile_eq_self_of_head
    intro c hc
    cases ws with
    | nil => exact absurd rfl hne
    | cons w t =>
      obtain ⟨hwne, hwp⟩ := h w (by simp)
      rw [head?_joinWordsC w t hwne] at hc
      cases w with
      | nil => exact absurd rfl hwne
      | cons a b =>
        simp at hc
        exact hc ▸ hwp a (by simp)
  unfold trimList
  rw [hdw]
  clear hdw
  induction ws with
  | nil => exact absurd rfl hne
  | cons w ws ih =>
    obtain ⟨hwne, hwp⟩ := h w (by simp)
    have h2 : ∀ x ∈ ws, x ≠ [] ∧ ∀ c ∈ x, isWsChar c = false :=
      fun x hx => h x (by simp [hx])
    cases ws with
    | nil => exact trimRight_of_all w hwp
    | cons w2 ws2 =>
      have ihr : trimRight (joinWordsC (w2 :: ws2)) = joinWordsC (w2 :: ws2) :=
        ih (by simp) h2
      have hJne : joinWordsC (w2 :: ws2) ≠ [] :=
        joinWordsC_ne_nil _ (by simp) (fun x hx => (h2 x hx).1)
      show trimRight (w ++ ' ' :: joinWordsC (w2 :: ws2)) = _
      rw [trimRight_append w _ hwp (trimRight_cons_of ' ' _ ihr hJne) (by simp)]
      rfl

/-! Lemmas reducing parse on canonically joined words. -/

theorem strExt {a b : String} (h : a.data = b.data) : a = b := by
  cases a
  cases b
  cases h
  rfl

theorem data_append (a b : String) : (a ++ b).data = a.data ++ b.data := by
  cases a
  cases b
  rfl

theorem parse_joined (ws : List (List Char)) (hne : ws ≠ [])
    (h : ∀ w ∈ ws, w ≠ [] ∧ ∀ c ∈ w, isWsChar c = false)
    (hhash : headIsHash (joinWordsC ws) = false) :
    RebaseTodoLine.parse ⟨joinWordsC ws⟩
      = (match RebaseTodoLine.parseTokens (ws.map (fun w => (⟨w⟩ : String))) with
         | some l => l
         | none => .Comment ⟨joinWordsC ws⟩) := by
  have hJne : joinWordsC ws ≠ [] := joinWordsC_ne_nil ws hne (fun w hw => (h w hw).1)
  show RebaseTodoLine.parse ⟨joinWordsC ws⟩ = _
  unfold RebaseTodoLine.parse
  have hdata : (String.mk (joinWordsC ws)).data = joinWordsC ws := rfl
  rw [hdata, trim_joinWords ws hne h]
  simp only [hhash, Bool.false_or, List.isEmpty_iff]
  rw [if_neg hJne, wordsGo_joinWords ws h]

theorem parse_words (wsS : List String) (hne : wsS ≠ [])
    (h : ∀ w ∈ wsS, w.data ≠ [] ∧ ∀ c ∈ w.data, isWsChar c = false)
    (hhash : headIsHash (joinWordsC (wsS.map String.data)) = false) :
    RebaseTodoLine.parse ⟨joinWordsC (wsS.map String.data)⟩
      = (match RebaseTodoLine.parseTokens wsS with
         | some l => l
         | none => .Comment ⟨joinWordsC (wsS.map String.data)⟩) := by
  have hmap : (wsS.map String.data).map (fun w => (⟨w⟩ : String)) = wsS := by
    rw [List.map_map]
    have hfun : ((fun w => (⟨w⟩ : String)) ∘ String.data) = id := funext (fun s => rfl)
    rw [hfun, List.map_id]
  have := parse_joined (wsS.map String.data)
    (by simpa using hne)
    (by intro w hw
        obtain ⟨s, hs, rfl⟩ := List.mem_map.mp hw
        exact h s hs)
    hhash
  rw [hmap] at this
  exact this

theorem plainWord_spec (s : String) (h : canonicalLine.plainWord s = true) :
    s.data ≠ [] ∧ (∀ c ∈ s.data, isWsChar c = false) ∧ flagLike s = false := by
  unfold canonicalLine.plainWord at h
  simp only [Bool.and_eq_true, Bool.not_eq_true', List.all_eq_true,
    List.isEmpty_iff] at h
  obtain ⟨⟨h1, h2⟩, h3⟩ := h
  refine ⟨by simpa using h1, ?_, h3⟩
  intro c hc
  simpa using h2 c hc

theorem joinSp_data (cmd : List String) :
    (RebaseTodoLine.display.joinSp cmd).data = joinWordsC (cmd.map String.data) := by
  induction cmd with
  | nil => rfl
  | cons s rest ih =>
    cases rest with
    | nil => rfl
    | cons b t =>
      show (s ++ " " ++ RebaseTodoLine.display.joinSp (b :: t)).data = _
      rw [data_append, data_append, ih]
      show (s.data ++ [' ']) ++ joinWordsC ((b :: t).map String.data)
          = s.data ++ ' ' :: joinWordsC ((b :: t).map String.data)
      simp

theorem roundtrip_two (kw w : String) (tl : RebaseTodoLine)
    (hkwne : kw.data ≠ []) (hkwp : ∀ c ∈ kw.data, isWsChar c = false)
    (hkwh : headIsHash kw.data = false)
    (hwne : w.data ≠ []) (hwp : ∀ c ∈ w.data, isWsChar c = false)
    (hpt : RebaseTodoLine.parseTokens [kw, w] = some tl)
    (hdisp : tl.display = kw ++ " " ++ w) :
    RebaseTodoLine.parse tl.display = tl := by
  obtain ⟨a, t, hk⟩ : ∃ a t, kw.data = a :: t := by
    cases hkl : kw.data with
    | nil => exact absurd hkl hkwne
    | cons a t => exact ⟨a, t, rfl⟩
  have hjoin : (kw ++ " " ++ w) = (⟨joinWordsC ([kw, w].map String.data)⟩ : String) := by
    apply strExt
    rw [data_append, data_append]
    show (kw.data ++ [' ']) ++ w.data = kw.data ++ ' ' :: w.data
    simp
  rw [hdisp, hjoin,
    parse_words [kw, w] (by simp)
      (by
        intro x hx
        rcases List.mem_cons.mp hx with h1 | h2
        · subst h1; exact ⟨hkwne, hkwp⟩
        · have : x = w := by simpa using h2
          subst this; exact ⟨hwne, hwp⟩)
      (by
        show headIsHash (kw.data ++ ' ' :: w.data) = false
        rw [hk] at hkwh ⊢
        exact hkwh)]
  rw [hpt]

/-- Claim C1 counterexample: the input written with a trailing rest token in
the canonical form of the table is not reproduced: the serializer drops the
rest tokens of a Pick line, so the exact round trip fails. -/
theorem claim1_roundtrip_cex :
    (RebaseTodoLine.parse "pick a b").display = "pick a"
    ∧ (RebaseTodoLine.parse "pick a b").display ≠ "pick a b"
    ∧ RebaseTodoLine.parse "pick a b" = .Pick "a" ["b"] := by
  refine ⟨by decide, by decide, by decide⟩

/-- Claim C1 (amended): serialize after parse is the identity on the
canonical form of every non-Comment variant whose trailing rest field is
empty; the rest tokens of Pick, Edit, Squash, Fixup, Drop, Label and Reset
lines are dropped by the serializer (see the counterexample), so lines
carrying them are excluded. -/
theorem claim1_roundtrip (t : RebaseTodoLine) (h : canonicalLine t = true) :
    RebaseTodoLine.parse t.display = t
    ∧ (RebaseTodoLine.parse t.display).display = t.display := by
  have main : RebaseTodoLine.parse t.display = t := by
    cases t with
    | Comment m => simp [canonicalLine] at h
    | Reword c rest => simp [canonicalLine] at h
    | Pick c rest =>
      rw [canonicalLine, Bool.and_eq_true] at h
      obtain ⟨hw, hr⟩ := h
      obtain ⟨h1, h2, h3⟩ := plainWord_spec c hw
      have hrest : rest = [] := by simpa [List.isEmpty_iff] using hr
      subst hrest
      exact roundtrip_two "pick" c _ (by decide) (by decide) (by decide) h1 h2
        (by simp [RebaseTodoLine.parseTokens, RebaseTodoLine.parseCommitRest, h3]) rfl
    | Edit c rest =>
      rw [canonicalLine, Bool.and_eq_true] at h
      obtain ⟨hw, hr⟩ := h
      obtain ⟨h1, h2, h3⟩ := plainWord_spec c hw
      have hrest : rest = [] := by simpa [List.isEmpty_iff] using hr
      subst hrest
      exact roundtrip_two "edit" c _ (by decide) (by decide) (by decide) h1 h2
        (by simp [RebaseTodoLine.parseTokens, RebaseTodoLine.parseCommitRest, h3]) rfl
    | Squash c rest =>
      rw [canonicalLine, Bool.and_eq_true] at h
      obtain ⟨hw, hr⟩ := h
      obtain ⟨h1, h2, h3⟩ := plainWord_spec c hw
      have hrest : rest = [] := by simpa [List.isEmpty_iff] using hr
      subst hrest
      exact roundtrip_two "squash" c _ (by decide) (by decide) (by decide) h1 h2
        (by simp [RebaseTodoLine.parseTokens, RebaseTodoLine.parseCommitRest, h3]) rfl
    | Fixup c rest =>
      rw [canonicalLine, Bool.and_eq_true] at h
      obtain ⟨hw, hr⟩ := h
      obtain ⟨h1, h2, h3⟩ := plainWord_spec c hw
      have hrest : rest = [] := by simpa [List.isEmpty_iff] using hr
      subst hrest
      exact roundtrip_two "fixup" c _ (by decide) (by decide) (by decide) h1 h2
        (by simp [RebaseTodoLine.parseTokens, RebaseTodoLine.parseCommitRest, h3]) rfl
    | Drop c rest =>
      rw [canonicalLine, Bool.and_eq_true] at h
      obtain ⟨hw, hr⟩ := h
      obtain ⟨h1, h2, h3⟩ := plainWord_spec c hw
      have hrest : rest = [] := by simpa [List.isEmpty_iff] using hr
      subst hrest
      exact roundtrip_two "drop" c _ (by decide) (by decide) (by decide) h1 h2
        (by simp [RebaseTodoLine.parseTokens, RebaseTodoLine.parseCommitRest, h3]) rfl
    | Label la rest =>
      rw [canonicalLine, Bool.and_eq_true] at h
      obtain ⟨hw, hr⟩ := h
      obtain ⟨h1, h2, h3⟩ := plainWord_spec la hw
      have hrest : rest = [] := by simpa [List.isEmpty_iff] using hr
      subst hrest
      exact roundtrip_two "label" la _ (by decide) (by decide) (by decide) h1 h2
        (by simp [RebaseTodoLine.parseTokens, RebaseTodoLine.parseCommitRest, h3]) rfl
    | Reset la rest =>
      rw [canonicalLine, Bool.and_eq_true] at h
      obtain ⟨hw, hr⟩ := h
      obtain ⟨h1, h2, h3⟩ := plainWord_spec la hw
      have hrest : rest = [] := by simpa [List.isEmpty_iff] using hr
      subst hrest
      exact roundtrip_two "reset" la _ (by decide) (by decide) (by decide) h1 h2
        (by simp [RebaseTodoLine.parseTokens, RebaseTodoLine.parseCommitRest, h3]) rfl
    | UpdateRef r =>
      rw [canonicalLine] at h
      obtain ⟨h1, h2, h3⟩ := plainWord_spec r h
      exact roundtrip_two "update-ref" r _ (by decide) (by decide) (by decide) h1 h2
        (by simp [RebaseTodoLine.parseTokens, RebaseTodoLine.parseUpdateRef, h3]) rfl
    | Merge co la =>
      cases co with
      | none =>
        rw [canonicalLine] at h
        simp only [Bool.and_eq_true] at h
        obtain ⟨h1, h2, h3⟩ := plainWord_spec la h.1
        exact roundtrip_two "merge" la _ (by decide) (by decide) (by decide) h1 h2
          (by simp [RebaseTodoLine.parseTokens, RebaseTodoLine.parseMerge, h3]) rfl
      | some c =>
        rw [canonicalLine] at h
        simp only [Bool.and_eq_true] at h
        obtain ⟨hla, hc⟩ := h
        obtain ⟨hl1, hl2, hl3⟩ := plainWord_spec la hla
        obtain ⟨hc1, hc2, hc3⟩ := plainWord_spec c hc
        have hdisp : (RebaseTodoLine.Merge (some c) la).display
            = (⟨joinWordsC ([("merge" : String), "-c", c, la].map String.data)⟩ : String) := by
          apply strExt
          show ("merge -c " ++ c ++ " " ++ la).data = _
          rw [show ("merge -c " ++ c ++ " " ++ la).data
              = "merge -c ".data ++ c.data ++ ([' '] ++ la.data) by
            cases c; cases la; simp [List.append_assoc]]
          simp [List.append_assoc, joinWordsC]
        rw [hdisp,
          parse_words [("merge" : String), "-c", c, la] (by simp)
            (by
              intro x hx
              simp only [List.mem_cons, List.not_mem_nil, or_false] at hx
              rcases hx with h1 | h1 | h1 | h1 <;> subst h1
              · exact ⟨by decide, by decide⟩
              · exact ⟨by decide, by decide⟩
              · exact ⟨hc1, hc2⟩
              · exact ⟨hl1, hl2⟩)
            (by
              show headIsHash ("merge".data ++ ' ' :: _) = false
              rfl)]
        simp [RebaseTodoLine.parseTokens, RebaseTodoLine.parseMerge, hc3, hl3]
    | Exec cmd =>
      rw [canonicalLine, Bool.and_eq_true] at h
      obtain ⟨hne, hall⟩ := h
      obtain ⟨c0, rest, rfl⟩ : ∃ c0 rest, cmd = c0 :: rest := by
        cases hcl : cmd with
        | nil => rw [hcl] at hne; simp at hne
        | cons a t => exact ⟨a, t, rfl⟩
      have hallw : ∀ x ∈ c0 :: rest, canonicalLine.plainWord x = true := by
        simpa [List.all_eq_true] using hall
      have hdisp : (RebaseTodoLine.Exec (c0 :: rest)).display
          = (⟨joinWordsC ([("exec" : String)] ++ c0 :: rest |>.map String.data)⟩ : String) := by
        apply strExt
        show ("exec " ++ RebaseTodoLine.display.joinSp (c0 :: rest)).data = _
        rw [data_append, joinSp_data]
        rfl
      rw [hdisp,
        parse_words ([("exec" : String)] ++ c0 :: rest) (by simp)
          (by
            intro x hx
            simp only [List.singleton_append, List.mem_cons] at hx
            rcases hx with h1 | h1
            · subst h1; exact ⟨by decide, by decide⟩
            · obtain ⟨p1, p2, _⟩ := plainWord_spec x (hallw x (by simp [h1]))
              exact ⟨p1, p2⟩)
          (by
            show headIsHash ("exec".data ++ ' ' :: _) = false
            rfl)]
      obtain ⟨_, _, hf⟩ := plainWord_spec c0 (hallw c0 (by simp))
      simp [RebaseTodoLine.parseTokens, RebaseTodoLine.parseExec, hf]
  exact ⟨main, by rw [main]⟩

/-- Witness instantiating the amended round-trip theorem at concrete
canonical lines of several variants. -/
theorem claim1_roundtrip_witness :
    canonicalLine (.Merge (some "abc123") "feature_branch") = true
    ∧ (RebaseTodoLine.parse
        (RebaseTodoLine.display (.Merge (some "abc123") "feature_branch"))).display
      = RebaseTodoLine.display (.Merge (some "abc123") "feature_branch")
    ∧ RebaseTodoLine.parse (RebaseTodoLine.display (.Exec ["echo", "hi"]))
      = .Exec ["echo", "hi"] :=
  ⟨by decide,
   (claim1_roundtrip (.Merge (some "abc123") "feature_branch") (by decide)).2,
   (claim1_roundtrip (.Exec ["echo", "hi"]) (by decide)).1⟩

/-- Claim C3: parse is total by construction; whenever the trimmed input is
empty, starts with the comment marker, or fails structured parsing, the
result is a Comment holding exactly the trimmed text, whose serialization
reproduces the trimmed input. -/
theorem claim3_parse_fallback (s : String)
    (h : (trimList s.data).isEmpty = true
      ∨ headIsHash (trimList s.data) = true
      ∨ RebaseTodoLine.parseTokens (wordsOf (rustTrim s)) = none) :
    RebaseTodoLine.parse s = .Comment (rustTrim s)
    ∧ (RebaseTodoLine.parse s).display = rustTrim s := by
  have hparse : RebaseTodoLine.parse s = .Comment (rustTrim s) := by
    unfold RebaseTodoLine.parse
    by_cases hc : (headIsHash (trimList s.data) || (trimList s.data).isEmpty) = true
    · simp only [hc, if_true]
      rfl
    · have hc2 := hc
      simp only [Bool.or_eq_true, not_or, Bool.not_eq_true] at hc2
      obtain ⟨hh, he⟩ := hc2
      rcases h with h1 | h1 | h1
      · rw [h1] at he; cases he
      · rw [h1] at hh; cases hh
      · simp only [hc, if_false]
        have hpt : RebaseTodoLine.parseTokens
            ((wordsGo [] (trimList s.data)).map (fun w => (⟨w⟩ : String))) = none := h1
        rw [hpt]
        rfl
  exact ⟨hparse, by rw [hparse]; rfl⟩

/-- Concrete instances discharging the hypothesis of the fallback theorem:
an all-whitespace line, a comment line and an unknown keyword. -/
theorem claim3_parse_fallback_witness :
    RebaseTodoLine.parse "   " = .Comment ""
    ∧ RebaseTodoLine.parse " # anything " = .Comment "# anything"
    ∧ RebaseTodoLine.parse "frobnicate x" = .Comment "frobnicate x"
    ∧ (RebaseTodoLine.parse "pick").display = "pick" :=
  ⟨(claim3_parse_fallback "   " (by decide)).1,
   (claim3_parse_fallback " # anything " (by decide)).1,
   (claim3_parse_fallback "frobnicate x" (by decide)).1,
   (claim3_parse_fallback "pick" (by decide)).2⟩

/-! Lemmas showing the word splitter ignores trimming,
used for the alias claim. -/

theorem wordsGo_dropWhile (l : List Char) :
    wordsGo [] (l.dropWhile isWsChar) = wordsGo [] l := by
  induction l with
  | nil => rfl
  | cons c cs ih =>
    by_cases hc : isWsChar c = true
    · rw [List.dropWhile_cons, if_pos hc, ih]
      simp [wordsGo, hc]
    · rw [List.dropWhile_cons, if_neg hc]

theorem wordsGo_ws_tail (tail : List Char)
    (hw : ∀ c ∈ tail, isWsChar c = true) (acc : List Char) :
    wordsGo acc tail = wordsGo acc [] := by
  induction tail generalizing acc with
  | nil => rfl
  | cons c t ih =>
    have hc : isWsChar c = true := hw c (by simp)
    have ht : ∀ x ∈ t, isWsChar x = true := fun x hx => hw x (by simp [hx])
    by_cases ha : acc.isEmpty
    · simp only [wordsGo, hc, if_true, ha]
      rw [ih ht []]
      have hae : acc = [] := by simpa [List.isEmpty_iff] using ha
      subst hae
      rfl
    · simp only [wordsGo, hc, if_true, ha, if_false]
      rw [ih ht []]
      simp [wordsGo, ha]

theorem wordsGo_append_ws (tail : List Char)
    (hw : ∀ c ∈ tail, isWsChar c = true) (l acc : List Char) :
    wordsGo acc (l ++ tail) = wordsGo acc l := by
  induction l generalizing acc with
  | nil =>
    rw [List.nil_append]
    exact wordsGo_ws_tail tail hw acc
  | cons c t ih =>
    by_cases hc : isWsChar c = true
    · by_cases ha : acc.isEmpty
      · rw [List.cons_append]
        rw [show wordsGo acc (c :: (t ++ tail)) = wordsGo [] (t ++ tail) by
          simp [wordsGo, hc, ha]]
        rw [show wordsGo acc (c :: t) = wordsGo [] t by simp [wordsGo, hc, ha]]
        exact ih []
      · rw [List.cons_append]
        rw [show wordsGo acc (c :: (t ++ tail)) = acc :: wordsGo [] (t ++ tail) by
          simp [wordsGo, hc, ha]]
        rw [show wordsGo acc (c :: t) = acc :: wordsGo [] t by
          simp [wordsGo, hc, ha]]
        rw [ih []]
    · rw [List.cons_append]
      rw [show wordsGo acc (c :: (t ++ tail)) = wordsGo (acc ++ [c]) (t ++ tail) by
        simp [wordsGo, hc]]
      rw [show wordsGo acc (c :: t) = wordsGo (acc ++ [c]) t by simp [wordsGo, hc]]
      exact ih (acc ++ [c])

theorem trimRight_decomp (l : List Char) :
    ∃ tail, (∀ c ∈ tail, isWsChar c = true) ∧ l = trimRight l ++ tail := by
  refine ⟨(l.reverse.takeWhile isWsChar).reverse, ?_, ?_⟩
  · intro c hc
    rw [List.mem_reverse] at hc
    exact List.mem_takeWhile_imp hc
  · unfold trimRight
    rw [← List.reverse_append, List.takeWhile_append_dropWhile, List.reverse_reverse]

theorem wordsGo_trim (l : List Char) :
    wordsGo [] (trimList l) = wordsGo [] l := by
  unfold trimList
  obtain ⟨tail, hws, hdec⟩ := trimRight_decomp (l.dropWhile isWsChar)
  calc wordsGo [] (trimRight (l.dropWhile isWsChar))
      = wordsGo [] (trimRight (l.dropWhile isWsChar) ++ tail) :=
        (wordsGo_append_ws tail hws _ []).symm
    _ = wordsGo [] (l.dropWhile isWsChar) := by rw [← hdec]
    _ = wordsGo [] l := wordsGo_dropWhile l

theorem trimRight_cons (c : Char) (l : List Char) (hc : isWsChar c = false) :
    trimRight (c :: l) = c :: trimRight l := by
  unfold trimRight
  rw [List.reverse_cons, List.dropWhile_append]
  by_cases he : (l.reverse.dropWhile isWsChar).isEmpty
  · have hz : l.reverse.dropWhile isWsChar = [] := by
      simpa [List.isEmpty_iff] using he
    rw [if_pos he, hz]
    simp [List.dropWhile_cons, hc]
  · rw [if_neg he]
    simp

theorem parse_split (kw : String) (r : String)
    (hkwne : kw.data ≠ []) (hkwp : ∀ c ∈ kw.data, isWsChar c = false)
    (hkwh : headIsHash kw.data = false) :
    RebaseTodoLine.parse (kw ++ " " ++ r)
      = (match RebaseTodoLine.parseTokens (kw :: wordsOf r) with
         | some l => l
         | none => .Comment (rustTrim (kw ++ " " ++ r))) := by
  obtain ⟨a, tt, hk⟩ : ∃ a tt, kw.data = a :: tt := by
    cases hkl : kw.data with
    | nil => exact absurd hkl hkwne
    | cons a tt => exact ⟨a, tt, rfl⟩
  have hXdata : (kw ++ " " ++ r).data = kw.data ++ ' ' :: r.data := by
    rw [data_append, data_append]
    show (kw.data ++ [' ']) ++ r.data = _
    simp
  have ha : isWsChar a = false := hkwp a (by simp [hk])
  have htrim : trimList (kw ++ " " ++ r).data
      = a :: trimRight (tt ++ ' ' :: r.data) := by
    rw [hXdata, hk]
    unfold trimList
    simp only [List.cons_append, List.dropWhile_cons, ha, Bool.false_eq_true,
      if_false]
    exact trimRight_cons a _ ha
  have hwords : wordsGo [] (trimList (kw ++ " " ++ r).data)
      = kw.data :: wordsGo [] r.data := by
    rw [wordsGo_trim, hXdata, wordsGo_append kw.data hkwp [] (' ' :: r.data)]
    have hkne2 : ¬([] ++ kw.data : List Char).isEmpty := by
      simpa [List.isEmpty_iff] using hkwne
    simp only [List.nil_append] at hkne2 ⊢
    show (if isWsChar ' ' = true then
        if kw.data.isEmpty = true then wordsGo [] r.data
        else kw.data :: wordsGo [] r.data
      else wordsGo (kw.data ++ [' ']) r.data) = _
    simp only [show isWsChar ' ' = true from rfl, if_true, hkne2, if_false]
    simp [List.isEmpty_iff, hkwne]
  unfold RebaseTodoLine.parse
  rw [htrim]
  have hhash2 : headIsHash (a :: trimRight (tt ++ ' ' :: r.data)) = false := by
    rw [hk] at hkwh
    exact hkwh
  simp only [hhash2, Bool.false_or, List.isEmpty_cons, if_false]
  rw [← htrim, hwords]
  show (match RebaseTodoLine.parseTokens
      ((⟨kw.data⟩ : String) :: (wordsGo [] r.data).map (fun w => (⟨w⟩ : String))) with
    | some l => l
    | none => RebaseTodoLine.Comment ⟨trimList (kw ++ " " ++ r).data⟩) = _
  rfl

/-- Claim C8: for every declared keyword and alias pair, a line written with
the alias parses to the same variant with the same fields as the line written
with the full keyword (whenever the structured parse succeeds; on failure the
Comment fallback preserves the two distinct spellings), and the
serialization of the result is identical. -/
theorem claim8_alias (kw al : String) (hmem : (kw, al) ∈ aliasPairs) (r : String)
    (h : (RebaseTodoLine.parseTokens (kw :: wordsOf r)).isSome = true) :
    RebaseTodoLine.parse (kw ++ " " ++ r) = RebaseTodoLine.parse (al ++ " " ++ r)
    ∧ (RebaseTodoLine.parse (kw ++ " " ++ r)).display
      = (RebaseTodoLine.parse (al ++ " " ++ r)).display := by
  obtain ⟨v, hv⟩ := Option.isSome_iff_exists.mp h
  have main : RebaseTodoLine.parse (kw ++ " " ++ r)
      = RebaseTodoLine.parse (al ++ " " ++ r) := by
    have hboth : (RebaseTodoLine.parseTokens (al :: wordsOf r)
          = RebaseTodoLine.parseTokens (kw :: wordsOf r))
        ∧ kw.data ≠ [] ∧ (∀ c ∈ kw.data, isWsChar c = false)
        ∧ headIsHash kw.data = false ∧ al.data ≠ []
        ∧ (∀ c ∈ al.data, isWsChar c = false) ∧ headIsHash al.data = false := by
      fin_cases hmem <;>
        exact ⟨rfl, by decide, by decide, by decide, by decide, by decide,
          by decide⟩
    obtain ⟨hdispatch, k1, k2, k3, a1, a2, a3⟩ := hboth
    rw [parse_split kw r k1 k2 k3, parse_split al r a1 a2 a3, hdispatch, hv]
  exact ⟨main, by rw [main]⟩

/-- Concrete instance of the alias law: the pick alias over a one-commit
line, applied through the theorem. -/
theorem claim8_alias_witness :
    RebaseTodoLine.parse ("pick" ++ " " ++ "abc123")
      = RebaseTodoLine.parse ("p" ++ " " ++ "abc123") :=
  (claim8_alias "pick" "p" (by decide) "abc123" (by decide)).1

/-! Lemmas characterizing the circular scans of editor.rs. -/

theorem nearestGo_eq_some (pred : Nat → Bool) :
    ∀ (fuel k0 k : Nat), nearestGo pred k0 fuel = some k →
      pred k = true ∧ k0 ≤ k ∧ k < k0 + fuel
      ∧ ∀ m, k0 ≤ m → m < k → pred m = false := by
  intro fuel
  induction fuel with
  | zero => intro k0 k h; cases h
  | succ fuel ih =>
    intro k0 k h
    unfold nearestGo at h
    by_cases hp : pred k0 = true
    · rw [if_pos hp] at h
      cases h
      exact ⟨hp, Nat.le_refl _, by omega, fun m h1 h2 => by omega⟩
    · rw [if_neg hp] at h
      obtain ⟨p1, p2, p3, p4⟩ := ih (k0 + 1) k h
      refine ⟨p1, by omega, by omega, ?_⟩
      intro m h1 h2
      by_cases hm : m = k0
      · subst hm; simpa using hp
      · exact p4 m (by omega) h2

theorem nearestGo_isSome (pred : Nat → Bool) :
    ∀ (fuel k0 k : Nat), k0 ≤ k → k < k0 + fuel → pred k = true →
      (nearestGo pred k0 fuel).isSome = true := by
  intro fuel
  induction fuel with
  | zero => intro k0 k h1 h2; omega
  | succ fuel ih =>
    intro k0 k h1 h2 hp
    unfold nearestGo
    by_cases hp0 : pred k0 = true
    · rw [if_pos hp0]; rfl
    · rw [if_neg hp0]
      have hne : k ≠ k0 := by intro hx; subst hx; exact hp0 hp
      exact ih (k0 + 1) k (by omega) (by omega) hp

theorem nearestGo_eq_none (pred : Nat → Bool) (hall : ∀ m, pred m = false) :
    ∀ (fuel k0 : Nat), nearestGo pred k0 fuel = none := by
  intro fuel
  induction fuel with
  | zero => intro k0; rfl
  | succ fuel ih =>
    intro k0
    unfold nearestGo
    rw [if_neg (by simp [hall k0]), ih]

theorem nearestGo_intro (pred : Nat → Bool) :
    ∀ (fuel k0 k : Nat), k0 ≤ k → k < k0 + fuel → pred k = true →
      (∀ m, k0 ≤ m → m < k → pred m = false) →
      nearestGo pred k0 fuel = some k := by
  intro fuel
  induction fuel with
  | zero => intro k0 k h1 h2; omega
  | succ fuel ih =>
    intro k0 k h1 h2 hp hmin
    unfold nearestGo
    by_cases hp0 : pred k0 = true
    · have : k = k0 := by
        by_contra hne
        have := hmin k0 (Nat.le_refl _) (by omega)
        rw [this] at hp0
        cases hp0
      rw [if_pos hp0, this]
    · rw [if_neg hp0]
      have hne : k ≠ k0 := by intro hx; subst hx; exact hp0 hp
      exact ih (k0 + 1) k (by omega) (by omega) hp
        (fun m hm1 hm2 => hmin m (by omega) hm2)

theorem downPos_shift (len start : Nat) :
    ∀ k, downPos len start (k + 1) = downPos len ((start + 1) % len) k := by
  intro k
  induction k with
  | zero => rfl
  | succ k ih =>
    show (downPos len start (k + 1) + 1) % len = _
    rw [ih]
    rfl

theorem upPos_shift (len start : Nat) :
    ∀ k, upPos len start (k + 1) = upPos len (stepUpIdx len start) k := by
  intro k
  induction k with
  | zero => rfl
  | succ k ih =>
    show stepUpIdx len (upPos len start (k + 1)) = _
    rw [ih]
    rfl

theorem downPos_mod (len cur : Nat) (hcur : cur < len) :
    ∀ k, downPos len cur k = (cur + k) % len := by
  intro k
  induction k with
  | zero => simp [downPos, Nat.mod_eq_of_lt hcur]
  | succ k ih =>
    show (downPos len cur k + 1) % len = _
    rw [ih, Nat.mod_add_mod, Nat.add_assoc]

theorem downPos_lt (len cur : Nat) (hlen : 0 < len) (hcur : cur < len) (k : Nat) :
    downPos len cur k < len := by
  rw [downPos_mod len cur hcur k]
  exact Nat.mod_lt _ hlen

theorem downPos_injOn (len cur : Nat) (hcur : cur < len) {a b : Nat}
    (hab : a < b) (hdiff : b - a < len) :
    downPos len cur a ≠ downPos len cur b := by
  have hlen : 0 < len := by omega
  rw [downPos_mod len cur hcur, downPos_mod len cur hcur]
  intro h
  have hmod : (cur + a) ≡ (cur + b) [MOD len] := h
  have hdvd : len ∣ (cur + b) - (cur + a) := (Nat.modEq_iff_dvd' (by omega)).mp hmod
  have hdvd2 : len ∣ b - a := by
    have : (cur + b) - (cur + a) = b - a := by omega
    rwa [this] at hdvd
  have := Nat.le_of_dvd (by omega) hdvd2
  omega

theorem downPos_surj (len cur : Nat) (hcur : cur < len) (i : Nat) (hi : i < len) :
    ∃ k, 1 ≤ k ∧ k ≤ len ∧ downPos len cur k = i := by
  by_cases h : cur < i
  · refine ⟨i - cur, by omega, by omega, ?_⟩
    rw [downPos_mod len cur hcur]
    have : cur + (i - cur) = i := by omega
    rw [this, Nat.mod_eq_of_lt hi]
  · refine ⟨len - cur + i, by omega, by omega, ?_⟩
    rw [downPos_mod len cur hcur]
    have h2 : cur + (len - cur + i) = i + len := by omega
    rw [h2, Nat.add_mod_right, Nat.mod_eq_of_lt hi]

theorem stepUpIdx_inv (len x : Nat) (hx : x < len) :
    stepUpIdx len ((x + 1) % len) = x := by
  by_cases h : x + 1 = len
  · have hz : (x + 1) % len = 0 := by rw [h]; exact Nat.mod_self len
    rw [hz]
    unfold stepUpIdx
    simp
    omega
  · have hlt : x + 1 < len := by omega
    rw [Nat.mod_eq_of_lt hlt]
    unfold stepUpIdx
    simp

theorem upPos_mod (len start : Nat) (hlen : 0 < len) (hstart : start < len) :
    ∀ k, k ≤ len → upPos len start k = (start + (len - k)) % len := by
  intro k
  induction k with
  | zero =>
    intro _
    show start = (start + len) % len
    rw [Nat.add_mod_right, Nat.mod_eq_of_lt hstart]
  | succ k ih =>
    intro hk
    show stepUpIdx len (upPos len start k) = _
    rw [ih (by omega)]
    have hsplit : start + (len - k) = (start + (len - (k + 1))) + 1 := by omega
    rw [hsplit, ← Nat.mod_add_mod]
    exact stepUpIdx_inv len _ (Nat.mod_lt _ hlen)

theorem upPos_lt (len start : Nat) (hlen : 0 < len) (hstart : start < len)
    (k : Nat) (hk : k ≤ len) : upPos len start k < len := by
  rw [upPos_mod len start hlen hstart k hk]
  exact Nat.mod_lt _ hlen

theorem upPos_downPos (len cur k : Nat) (hlen : 0 < len) (hcur : cur < len) :
    ∀ m, m ≤ k → upPos len (downPos len cur k) m = downPos len cur (k - m) := by
  intro m
  induction m with
  | zero => intro _; rfl
  | succ m ih =>
    intro hm
    show stepUpIdx len (upPos len (downPos len cur k) m) = _
    rw [ih (by omega)]
    have hkm : k - m = (k - (m + 1)) + 1 := by omega
    rw [hkm]
    show stepUpIdx len ((downPos len cur (k - (m + 1)) + 1) % len) = _
    exact stepUpIdx_inv len _ (downPos_lt len cur hlen hcur _)

theorem scanDown_eq (lines : List RebaseTodoLine) (len start : Nat) :
    ∀ (fuel j : Nat),
      RebaseEditor.scanDown lines len (downPos len start j) fuel
        = (nearestGo
            (fun k => !(lines.getD (downPos len start k) RebaseEditor.dflt).isComment)
            (j + 1) fuel).map (downPos len start) := by
  intro fuel
  induction fuel with
  | zero => intro j; rfl
  | succ fuel ih =>
    intro j
    show (if (lines.getD ((downPos len start j + 1) % len) RebaseEditor.dflt).isComment
        then RebaseEditor.scanDown lines len ((downPos len start j + 1) % len) fuel
        else some ((downPos len start j + 1) % len)) = _
    have hstep : (downPos len start j + 1) % len = downPos len start (j + 1) := rfl
    rw [hstep]
    unfold nearestGo
    by_cases hcom : (lines.getD (downPos len start (j + 1)) RebaseEditor.dflt).isComment = true
    · rw [if_pos hcom, if_neg (by rw [hcom]; decide), ih (j + 1)]
    · rw [if_neg hcom, if_pos (by simp [Bool.not_eq_true] at hcom; simp [hcom])]
      rfl

theorem scanUp_eq (lines : List RebaseTodoLine) (len start : Nat) :
    ∀ (fuel j : Nat),
      RebaseEditor.scanUp lines len (upPos len start j) fuel
        = (nearestGo
            (fun k => !(lines.getD (upPos len start k) RebaseEditor.dflt).isComment)
            (j + 1) fuel).map (upPos len start) := by
  intro fuel
  induction fuel with
  | zero => intro j; rfl
  | succ fuel ih =>
    intro j
    show (if (lines.getD (stepUpIdx len (upPos len start j)) RebaseEditor.dflt).isComment
        then RebaseEditor.scanUp lines len (stepUpIdx len (upPos len start j)) fuel
        else some (stepUpIdx len (upPos len start j))) = _
    have hstep : stepUpIdx len (upPos len start j) = upPos len start (j + 1) := rfl
    rw [hstep]
    unfold nearestGo
    by_cases hcom : (lines.getD (upPos len start (j + 1)) RebaseEditor.dflt).isComment = true
    · rw [if_pos hcom, if_neg (by rw [hcom]; decide), ih (j + 1)]
    · rw [if_neg hcom, if_pos (by simp [Bool.not_eq_true] at hcom; simp [hcom])]
      rfl

theorem scanDown_nearest (lines : List RebaseTodoLine) (start : Nat) :
    RebaseEditor.scanDown lines lines.length start lines.length
      = (nearestActionableDown lines start).map (downPos lines.length start) := by
  have h := scanDown_eq lines lines.length start lines.length 0
  exact h

theorem scanUp_nearest (lines : List RebaseTodoLine) (start : Nat) :
    RebaseEditor.scanUp lines lines.length start lines.length
      = (nearestActionableUp lines start).map (upPos lines.length start) := by
  have h := scanUp_eq lines lines.length start lines.length 0
  exact h

theorem upPos_surj (len cur : Nat) (hlen : 0 < len) (hcur : cur < len)
    (i : Nat) (hi : i < len) :
    ∃ k, 1 ≤ k ∧ k ≤ len ∧ upPos len cur k = i := by
  by_cases h : i < cur
  · refine ⟨cur - i, by omega, by omega, ?_⟩
    rw [upPos_mod len cur hlen hcur _ (by omega)]
    have h2 : cur + (len - (cur - i)) = i + len := by omega
    rw [h2, Nat.add_mod_right, Nat.mod_eq_of_lt hi]
  · refine ⟨cur + len - i, by omega, by omega, ?_⟩
    rw [upPos_mod len cur hlen hcur _ (by omega)]
    have h2 : cur + (len - (cur + len - i)) = i := by omega
    rw [h2, Nat.mod_eq_of_lt hi]

theorem nearestActionableDown_nil (start : Nat) :
    nearestActionableDown [] start = none := rfl

theorem nearestActionableUp_nil (start : Nat) :
    nearestActionableUp [] start = none := rfl

theorem getD_comment_of_all (lines : List RebaseTodoLine)
    (h : ∀ l ∈ lines, l.isComment = true) (i : Nat) :
    (lines.getD i RebaseEditor.dflt).isComment = true := by
  by_cases hi : i < lines.length
  · rw [List.getD_eq_getElem lines RebaseEditor.dflt hi]
    exact h _ (List.getElem_mem hi)
  · rw [List.getD_eq_default lines RebaseEditor.dflt (by omega)]
    rfl

theorem sel_lt_of_wf (ed : RebaseEditor) (hwf : ed.wf) (hne : ed.lines ≠ []) :
    ed.sel < ed.lines.length := by
  rcases hwf with h | h
  · exact absurd h hne
  · exact h

theorem move_down_spec (ed : RebaseEditor) :
    ed.move_cursor_down
      = (match nearestActionableDown ed.lines ed.sel with
         | some k => { ed with selected? := some (downPos ed.lines.length ed.sel k) }
         | none => ed) := by
  unfold RebaseEditor.move_cursor_down
  by_cases hlen : ed.lines.length = 0
  · rw [if_pos hlen]
    have hnil : ed.lines = [] := List.length_eq_zero.mp hlen
    rw [hnil, nearestActionableDown_nil]
  · rw [if_neg hlen, scanDown_nearest]
    cases h : nearestActionableDown ed.lines ed.sel with
    | none => rfl
    | some k => rfl

theorem move_up_spec (ed : RebaseEditor) :
    ed.move_cursor_up
      = (match nearestActionableUp ed.lines ed.sel with
         | some k => { ed with selected? := some (upPos ed.lines.length ed.sel k) }
         | none => ed) := by
  unfold RebaseEditor.move_cursor_up
  by_cases hlen : ed.lines.length = 0
  · rw [if_pos hlen]
    have hnil : ed.lines = [] := List.length_eq_zero.mp hlen
    rw [hnil, nearestActionableUp_nil]
  · rw [if_neg hlen, scanUp_nearest]
    cases h : nearestActionableUp ed.lines ed.sel with
    | none => rfl
    | some k => rfl

theorem swap_down_spec (ed : RebaseEditor) :
    ed.swap_down
      = (match nearestActionableDown ed.lines ed.sel with
         | some k =>
             ⟨RebaseEditor.listSwap ed.lines ed.sel (downPos ed.lines.length ed.sel k),
              some (downPos ed.lines.length ed.sel k)⟩
         | none => ed) := by
  unfold RebaseEditor.swap_down
  by_cases hlen : ed.lines.length = 0
  · rw [if_pos hlen]
    have hnil : ed.lines = [] := List.length_eq_zero.mp hlen
    rw [hnil, nearestActionableDown_nil]
  · rw [if_neg hlen]
    show (match RebaseEditor.scanDown ed.lines ed.lines.length ed.sel
        ed.lines.length with
      | some i => ({ lines := RebaseEditor.listSwap ed.lines ed.sel i,
                     selected? := some i } : RebaseEditor)
      | none => ed) = _
    rw [scanDown_nearest]
    cases h : nearestActionableDown ed.lines ed.sel with
    | none => rfl
    | some k => rfl

theorem swap_up_spec (ed : RebaseEditor) :
    ed.swap_up
      = (match nearestActionableUp ed.lines ed.sel with
         | some k =>
             ⟨RebaseEditor.listSwap ed.lines ed.sel (upPos ed.lines.length ed.sel k),
              some (upPos ed.lines.length ed.sel k)⟩
         | none => ed) := by
  unfold RebaseEditor.swap_up
  by_cases hlen : ed.lines.length = 0
  · rw [if_pos hlen]
    have hnil : ed.lines = [] := List.length_eq_zero.mp hlen
    rw [hnil, nearestActionableUp_nil]
  · rw [if_neg hlen]
    show (match RebaseEditor.scanUp ed.lines ed.lines.length ed.sel
        ed.lines.length with
      | some i => ({ lines := RebaseEditor.listSwap ed.lines ed.sel i,
                     selected? := some i } : RebaseEditor)
      | none => ed) = _
    rw [scanUp_nearest]
    cases h : nearestActionableUp ed.lines ed.sel with
    | none => rfl
    | some k => rfl

theorem nearestDown_isSome (ed : RebaseEditor) (hsel : ed.sel < ed.lines.length)
    (l : RebaseTodoLine) (hl : l ∈ ed.lines) (hla : l.isComment = false) :
    (nearestActionableDown ed.lines ed.sel).isSome = true := by
  obtain ⟨i, hi, hgi⟩ := List.mem_iff_getElem.mp hl
  obtain ⟨k, hk1, hk2, hk3⟩ :=
    downPos_surj ed.lines.length ed.sel hsel i hi
  apply nearestGo_isSome _ ed.lines.length 1 k hk1 (by omega)
  rw [hk3, List.getD_eq_getElem _ _ hi, hgi, hla]
  rfl

theorem nearestUp_isSome (ed : RebaseEditor) (hsel : ed.sel < ed.lines.length)
    (l : RebaseTodoLine) (hl : l ∈ ed.lines) (hla : l.isComment = false) :
    (nearestActionableUp ed.lines ed.sel).isSome = true := by
  obtain ⟨i, hi, hgi⟩ := List.mem_iff_getElem.mp hl
  obtain ⟨k, hk1, hk2, hk3⟩ :=
    upPos_surj ed.lines.length ed.sel (by omega) hsel i hi
  apply nearestGo_isSome _ ed.lines.length 1 k hk1 (by omega)
  rw [hk3, List.getD_eq_getElem _ _ hi, hgi, hla]
  rfl

theorem nearestDown_none_of_all (ed : RebaseEditor)
    (hall : ∀ l ∈ ed.lines, l.isComment = true) :
    nearestActionableDown ed.lines ed.sel = none := by
  apply nearestGo_eq_none
  intro m
  show (!(ed.lines.getD (downPos ed.lines.length ed.sel m)
      RebaseEditor.dflt).isComment) = false
  rw [getD_comment_of_all ed.lines hall]
  rfl

theorem nearestUp_none_of_all (ed : RebaseEditor)
    (hall : ∀ l ∈ ed.lines, l.isComment = true) :
    nearestActionableUp ed.lines ed.sel = none := by
  apply nearestGo_eq_none
  intro m
  show (!(ed.lines.getD (upPos ed.lines.length ed.sel m)
      RebaseEditor.dflt).isComment) = false
  rw [getD_comment_of_all ed.lines hall]
  rfl

/-- Claim C4: each move call keeps the line vector intact; when the nearest
actionable offset in the requested circular direction exists, the selection
lands exactly there, on a non-Comment line; an actionable line guarantees the
offset exists in both directions (so the cursor never rests on a
non-actionable line when an actionable one exists); when every line is a
Comment, or the document is empty, both moves leave the editor unchanged. -/
theorem claim4_move (ed : RebaseEditor) (hwf : ed.wf) :
    ((ed.move_cursor_down).lines = ed.lines ∧ (ed.move_cursor_up).lines = ed.lines)
    ∧ (match nearestActionableDown ed.lines ed.sel with
       | some k =>
           (ed.move_cursor_down).selected?
             = some (downPos ed.lines.length ed.sel k)
           ∧ (ed.lines.getD (downPos ed.lines.length ed.sel k)
               RebaseEditor.dflt).isComment = false
       | none => ed.move_cursor_down = ed)
    ∧ (match nearestActionableUp ed.lines ed.sel with
       | some k =>
           (ed.move_cursor_up).selected? = some (upPos ed.lines.length ed.sel k)
           ∧ (ed.lines.getD (upPos ed.lines.length ed.sel k)
               RebaseEditor.dflt).isComment = false
       | none => ed.move_cursor_up = ed)
    ∧ ((∃ l ∈ ed.lines, l.isComment = false) →
        (nearestActionableDown ed.lines ed.sel).isSome = true
        ∧ (nearestActionableUp ed.lines ed.sel).isSome = true)
    ∧ ((∀ l ∈ ed.lines, l.isComment = true) →
        ed.move_cursor_down = ed ∧ ed.move_cursor_up = ed) := by
  refine ⟨⟨?_, ?_⟩, ?_, ?_, ?_, ?_⟩
  · rw [move_down_spec ed]
    cases nearestActionableDown ed.lines ed.sel <;> rfl
  · rw [move_up_spec ed]
    cases nearestActionableUp ed.lines ed.sel <;> rfl
  · cases h : nearestActionableDown ed.lines ed.sel with
    | none =>
      rw [move_down_spec ed, h]
    | some k =>
      obtain ⟨hp, _, _, _⟩ := nearestGo_eq_some _ _ _ _ h
      refine ⟨by rw [move_down_spec ed, h], ?_⟩
      simpa using hp
  · cases h : nearestActionableUp ed.lines ed.sel with
    | none =>
      rw [move_up_spec ed, h]
    | some k =>
      obtain ⟨hp, _, _, _⟩ := nearestGo_eq_some _ _ _ _ h
      refine ⟨by rw [move_up_spec ed, h], ?_⟩
      simpa using hp
  · rintro ⟨l, hl, hla⟩
    have hne : ed.lines ≠ [] := by
      intro hx
      rw [hx] at hl
      simp at hl
    have hsel := sel_lt_of_wf ed hwf hne
    exact ⟨nearestDown_isSome ed hsel l hl hla, nearestUp_isSome ed hsel l hl hla⟩
  · intro hall
    constructor
    · rw [move_down_spec ed, nearestDown_none_of_all ed hall]
    · rw [move_up_spec ed, nearestUp_none_of_all ed hall]

/-- Witness for the move claim at a concrete four-line document: moving down
from the first actionable line skips the comment and selects the next
actionable line. -/
theorem claim4_move_witness :
    ((RebaseEditor.new "# a\npick x\n# b\npick y").move_cursor_down).lines
      = (RebaseEditor.new "# a\npick x\n# b\npick y").lines :=
  (claim4_move (RebaseEditor.new "# a\npick x\n# b\npick y") (by decide)).1.1

/-! Lemmas about the element exchange performed by the swap operations. -/

theorem listSwap_length (l : List RebaseTodoLine) (i j : Nat) :
    (RebaseEditor.listSwap l i j).length = l.length := by
  unfold RebaseEditor.listSwap
  simp

theorem listSwap_get? (l : List RebaseTodoLine) (i j x : Nat)
    (hi : i < l.length) (hj : j < l.length) :
    (RebaseEditor.listSwap l i j).get? x
      = if x = j then l.get? i else if x = i then l.get? j else l.get? x := by
  unfold RebaseEditor.listSwap
  by_cases hxj : x = j
  · rw [if_pos hxj, hxj]
    have hlt : j < (l.set i (l.getD j RebaseEditor.dflt)).length := by
      rw [List.length_set]; exact hj
    rw [List.get?_set_eq_of_lt _ hlt, List.getD_eq_getElem l _ hi,
      List.get?_eq_get hi]
    rfl
  · rw [if_neg hxj, List.get?_set_ne _ _ (fun h => hxj h.symm)]
    by_cases hxi : x = i
    · rw [if_pos hxi, hxi, List.get?_set_eq_of_lt _ hi,
        List.getD_eq_getElem l _ hj, List.get?_eq_get hj]
      rfl
    · rw [if_neg hxi, List.get?_set_ne _ _ (fun h => hxi h.symm)]

theorem listSwap_getD (l : List RebaseTodoLine) (i j x : Nat)
    (hi : i < l.length) (hj : j < l.length) :
    (RebaseEditor.listSwap l i j).getD x RebaseEditor.dflt
      = if x = j then l.getD i RebaseEditor.dflt
        else if x = i then l.getD j RebaseEditor.dflt
        else l.getD x RebaseEditor.dflt := by
  have h := listSwap_get? l i j x hi hj
  show ((RebaseEditor.listSwap l i j).get? x).getD RebaseEditor.dflt = _
  rw [h]
  by_cases hxj : x = j
  · rw [if_pos hxj, if_pos hxj]; rfl
  · rw [if_neg hxj, if_neg hxj]
    by_cases hxi : x = i
    · rw [if_pos hxi, if_pos hxi]; rfl
    · rw [if_neg hxi, if_neg hxi]; rfl

theorem listSwap_self (l : List RebaseTodoLine) (i : Nat) (hi : i < l.length) :
    RebaseEditor.listSwap l i i = l := by
  apply List.ext_get?
  intro n
  rw [listSwap_get? l i i n hi hi]
  by_cases hn : n = i
  · rw [if_pos hn, hn]
  · rw [if_neg hn, if_neg hn]

theorem listSwap_invol (l : List RebaseTodoLine) (i j : Nat)
    (hi : i < l.length) (hj : j < l.length) :
    RebaseEditor.listSwap (RebaseEditor.listSwap l i j) j i = l := by
  have hlen : (RebaseEditor.listSwap l i j).length = l.length := listSwap_length l i j
  apply List.ext_get?
  intro n
  rw [listSwap_get? _ j i n (by rw [hlen]; exact hj) (by rw [hlen]; exact hi)]
  by_cases hni : n = i
  · rw [if_pos hni, listSwap_get? l i j j hi hj, if_pos rfl, hni]
  · rw [if_neg hni]
    by_cases hnj : n = j
    · rw [if_pos hnj, listSwap_get? l i j i hi hj, hnj]
      by_cases hij : i = j
      · rw [if_pos hij, hij]
      · rw [if_neg hij, if_pos rfl]
    · rw [if_neg hnj, listSwap_get? l i j n hi hj, if_neg hnj, if_neg hni]

/-! Counting actionable lines. -/

theorem two_le_countActionable (lines : List RebaseTodoLine) (i j : Nat)
    (hij : i < j) (hj : j < lines.length)
    (hia : (lines.getD i RebaseEditor.dflt).isComment = false)
    (hja : (lines.getD j RebaseEditor.dflt).isComment = false) :
    2 ≤ countActionable lines := by
  unfold countActionable
  have hi : i < lines.length := by omega
  conv_rhs => rw [← List.take_append_drop j lines, List.filter_append,
    List.length_append]
  have hsome : ∀ x, (hx : x < lines.length) →
      lines.get? x = some (lines.getD x RebaseEditor.dflt) := by
    intro x hx
    rw [List.get?_eq_get hx, List.getD_eq_getElem lines _ hx]
    rfl
  have h1 : 0 < (List.filter (fun l => !l.isComment) (List.take j lines)).length := by
    have hmem : lines.getD i RebaseEditor.dflt ∈ List.take j lines := by
      apply List.get?_mem (n := i)
      rw [List.get?_take hij, hsome i hi]
    have hf : lines.getD i RebaseEditor.dflt
        ∈ List.filter (fun l => !l.isComment) (List.take j lines) :=
      List.mem_filter.mpr ⟨hmem, by rw [hia]; rfl⟩
    exact List.length_pos.mpr (List.ne_nil_of_mem hf)
  have h2 : 0 < (List.filter (fun l => !l.isComment) (List.drop j lines)).length := by
    have hmem : lines.getD j RebaseEditor.dflt ∈ List.drop j lines := by
      apply List.get?_mem (n := 0)
      rw [List.get?_drop, Nat.add_zero, hsome j hj]
    have hf : lines.getD j RebaseEditor.dflt
        ∈ List.filter (fun l => !l.isComment) (List.drop j lines) :=
      List.mem_filter.mpr ⟨hmem, by rw [hja]; rfl⟩
    exact List.length_pos.mpr (List.ne_nil_of_mem hf)
  omega

theorem countActionable_le_one (lines : List RebaseTodoLine) (s : Nat)
    (h : ∀ j, j < lines.length → j ≠ s →
      (lines.getD j RebaseEditor.dflt).isComment = true) :
    countActionable lines ≤ 1 := by
  induction lines generalizing s with
  | nil => simp [countActionable]
  | cons a t ih =>
    by_cases hs : s = 0
    · subst hs
      have ht : t.filter (fun l => !l.isComment) = [] := by
        rw [List.filter_eq_nil]
        intro l hl
        obtain ⟨j, hj, hgj⟩ := List.mem_iff_getElem.mp hl
        have h2 := h (j + 1) (by simp; omega) (by omega)
        rw [show ((a :: t).getD (j + 1) RebaseEditor.dflt)
            = t.getD j RebaseEditor.dflt from rfl] at h2
        rw [List.getD_eq_getElem t _ hj, hgj] at h2
        simp [h2]
      unfold countActionable
      rw [List.filter_cons, ht]
      cases (!a.isComment) <;> simp
    · have ha := h 0 (by simp) (by omega)
      rw [show ((a :: t).getD 0 RebaseEditor.dflt) = a from rfl] at ha
      have ht := ih (s - 1) (by
        intro j hj hjs
        have h2 := h (j + 1) (by simp; omega) (by omega)
        rw [show ((a :: t).getD (j + 1) RebaseEditor.dflt)
            = t.getD j RebaseEditor.dflt from rfl] at h2
        exact h2)
      unfold countActionable at ht ⊢
      rw [List.filter_cons]
      rw [show (!a.isComment) = false by rw [ha]; rfl]
      simpa using ht

theorem sel_lt_of_cursor_actionable (ed : RebaseEditor)
    (hcur : (ed.lines.getD ed.sel RebaseEditor.dflt).isComment = false) :
    ed.sel < ed.lines.length := by
  by_contra hge
  rw [List.getD_eq_default ed.lines RebaseEditor.dflt (by omega)] at hcur
  cases hcur

/-- Claim C5: with the cursor on an actionable line, a swap target exists in
both directions; the swap exchanges exactly the cursor line and the nearest
actionable line in the requested circular direction (every other position is
untouched), and the cursor moves to the target position, which afterwards
holds the originally selected line; with zero actionable lines both swaps
leave the editor unchanged, and with exactly one actionable line (under the
cursor) both swaps leave the line order and contents unchanged. -/
theorem claim5_swap (ed : RebaseEditor) :
    (((ed.lines.getD ed.sel RebaseEditor.dflt).isComment = false →
      (nearestActionableDown ed.lines ed.sel).isSome = true
      ∧ (nearestActionableUp ed.lines ed.sel).isSome = true
      ∧ (match nearestActionableDown ed.lines ed.sel with
         | some k =>
             (ed.swap_down).selected? = some (downPos ed.lines.length ed.sel k)
             ∧ (ed.swap_down).lines.length = ed.lines.length
             ∧ (ed.swap_down).lines.getD (downPos ed.lines.length ed.sel k)
                 RebaseEditor.dflt = ed.lines.getD ed.sel RebaseEditor.dflt
             ∧ (ed.swap_down).lines.getD ed.sel RebaseEditor.dflt
                 = ed.lines.getD (downPos ed.lines.length ed.sel k) RebaseEditor.dflt
             ∧ ∀ x, x ≠ ed.sel → x ≠ downPos ed.lines.length ed.sel k →
                 (ed.swap_down).lines.getD x RebaseEditor.dflt
                   = ed.lines.getD x RebaseEditor.dflt
         | none => True)
      ∧ (match nearestActionableUp ed.lines ed.sel with
         | some k =>
             (ed.swap_up).selected? = some (upPos ed.lines.length ed.sel k)
             ∧ (ed.swap_up).lines.length = ed.lines.length
             ∧ (ed.swap_up).lines.getD (upPos ed.lines.length ed.sel k)
                 RebaseEditor.dflt = ed.lines.getD ed.sel RebaseEditor.dflt
             ∧ (ed.swap_up).lines.getD ed.sel RebaseEditor.dflt
                 = ed.lines.getD (upPos ed.lines.length ed.sel k) RebaseEditor.dflt
             ∧ ∀ x, x ≠ ed.sel → x ≠ upPos ed.lines.length ed.sel k →
                 (ed.swap_up).lines.getD x RebaseEditor.dflt
                   = ed.lines.getD x RebaseEditor.dflt
         | none => True))
    ∧ (countActionable ed.lines = 0 → ed.swap_down = ed ∧ ed.swap_up = ed)
    ∧ (countActionable ed.lines = 1 →
        (ed.lines.getD ed.sel RebaseEditor.dflt).isComment = false →
        (ed.swap_down).lines = ed.lines ∧ (ed.swap_up).lines = ed.lines)) := by
  refine ⟨?_, ?_, ?_⟩
  · intro hcur
    have hsel := sel_lt_of_cursor_actionable ed hcur
    have hlen : 0 < ed.lines.length := by omega
    have hmem : ed.lines.getD ed.sel RebaseEditor.dflt ∈ ed.lines := by
      rw [List.getD_eq_getElem ed.lines _ hsel]
      exact List.getElem_mem hsel
    refine ⟨nearestDown_isSome ed hsel _ hmem hcur,
            nearestUp_isSome ed hsel _ hmem hcur, ?_, ?_⟩
    · cases h : nearestActionableDown ed.lines ed.sel with
      | none => trivial
      | some k =>
        have hsd := swap_down_spec ed
        rw [h] at hsd
        have htlt : downPos ed.lines.length ed.sel k < ed.lines.length :=
          downPos_lt _ _ hlen hsel k
        refine ⟨by rw [hsd], by rw [hsd]; exact listSwap_length _ _ _, ?_, ?_, ?_⟩
        · rw [hsd]
          show (RebaseEditor.listSwap ed.lines ed.sel
            (downPos ed.lines.length ed.sel k)).getD
              (downPos ed.lines.length ed.sel k) RebaseEditor.dflt = _
          rw [listSwap_getD ed.lines ed.sel _ _ hsel htlt, if_pos rfl]
        · rw [hsd]
          show (RebaseEditor.listSwap ed.lines ed.sel
            (downPos ed.lines.length ed.sel k)).getD ed.sel RebaseEditor.dflt = _
          rw [listSwap_getD ed.lines ed.sel _ _ hsel htlt]
          by_cases hst : ed.sel = downPos ed.lines.length ed.sel k
          · rw [if_pos hst, ← hst]
          · rw [if_neg hst, if_pos rfl]
        · intro x hx1 hx2
          rw [hsd]
          show (RebaseEditor.listSwap ed.lines ed.sel
            (downPos ed.lines.length ed.sel k)).getD x RebaseEditor.dflt = _
          rw [listSwap_getD ed.lines ed.sel _ _ hsel htlt, if_neg hx2, if_neg hx1]
    · cases h : nearestActionableUp ed.lines ed.sel with
      | none => trivial
      | some k =>
        have hsu := swap_up_spec ed
        rw [h] at hsu
        obtain ⟨_, _, hk2, _⟩ := nearestGo_eq_some _ _ _ _ h
        have htlt : upPos ed.lines.length ed.sel k < ed.lines.length :=
          upPos_lt _ _ hlen hsel k (by omega)
        refine ⟨by rw [hsu], by rw [hsu]; exact listSwap_length _ _ _, ?_, ?_, ?_⟩
        · rw [hsu]
          show (RebaseEditor.listSwap ed.lines ed.sel
            (upPos ed.lines.length ed.sel k)).getD
              (upPos ed.lines.length ed.sel k) RebaseEditor.dflt = _
          rw [listSwap_getD ed.lines ed.sel _ _ hsel htlt, if_pos rfl]
        · rw [hsu]
          show (RebaseEditor.listSwap ed.lines ed.sel
            (upPos ed.lines.length ed.sel k)).getD ed.sel RebaseEditor.dflt = _
          rw [listSwap_getD ed.lines ed.sel _ _ hsel htlt]
          by_cases hst : ed.sel = upPos ed.lines.length ed.sel k
          · rw [if_pos hst, ← hst]
          · rw [if_neg hst, if_pos rfl]
        · intro x hx1 hx2
          rw [hsu]
          show (RebaseEditor.listSwap ed.lines ed.sel
            (upPos ed.lines.length ed.sel k)).getD x RebaseEditor.dflt = _
          rw [listSwap_getD ed.lines ed.sel _ _ hsel htlt, if_neg hx2, if_neg hx1]
  · intro hzero
    have hall : ∀ l ∈ ed.lines, l.isComment = true := by
      intro l hl
      by_contra hna
      have hla : l.isComment = false := by
        cases hq : l.isComment
        · rfl
        · exact absurd hq hna
      have hf : l ∈ List.filter (fun x => !x.isComment) ed.lines :=
        List.mem_filter.mpr ⟨hl, by rw [hla]; rfl⟩
      have := List.length_pos.mpr (List.ne_nil_of_mem hf)
      unfold countActionable at hzero
      omega
    constructor
    · rw [swap_down_spec ed, nearestDown_none_of_all ed hall]
    · rw [swap_up_spec ed, nearestUp_none_of_all ed hall]
  · intro hone hcur
    have hsel := sel_lt_of_cursor_actionable ed hcur
    have hlen : 0 < ed.lines.length := by omega
    have hother : ∀ x, x < ed.lines.length → x ≠ ed.sel →
        (ed.lines.getD x RebaseEditor.dflt).isComment = true := by
      intro x hx hxs
      by_contra hna
      have hxa : (ed.lines.getD x RebaseEditor.dflt).isComment = false := by
        cases hq : (ed.lines.getD x RebaseEditor.dflt).isComment
        · rfl
        · exact absurd hq hna
      have h2 : 2 ≤ countActionable ed.lines := by
        by_cases hlt : x < ed.sel
        · exact two_le_countActionable ed.lines x ed.sel hlt hsel hxa hcur
        · exact two_le_countActionable ed.lines ed.sel x (by omega) hx hcur hxa
      omega
    have hdownlen : downPos ed.lines.length ed.sel ed.lines.length = ed.sel := by
      rw [downPos_mod _ _ hsel, Nat.add_mod_right, Nat.mod_eq_of_lt hsel]
    have hdownne : ∀ m, 1 ≤ m → m < ed.lines.length →
        downPos ed.lines.length ed.sel m ≠ ed.sel := by
      intro m h1 h2 heq
      apply downPos_injOn ed.lines.length ed.sel hsel
        (show (0 : Nat) < m by omega) (by omega)
      show downPos _ _ 0 = downPos _ _ m
      rw [show downPos ed.lines.length ed.sel 0 = ed.sel from rfl, heq]
    have hnd : nearestActionableDown ed.lines ed.sel = some ed.lines.length := by
      apply nearestGo_intro _ ed.lines.length 1 ed.lines.length (by omega) (by omega)
      · show (!(ed.lines.getD (downPos ed.lines.length ed.sel ed.lines.length)
          RebaseEditor.dflt).isComment) = true
        rw [hdownlen, hcur]
        rfl
      · intro m hm1 hm2
        show (!(ed.lines.getD (downPos ed.lines.length ed.sel m)
          RebaseEditor.dflt).isComment) = false
        rw [hother _ (downPos_lt _ _ hlen hsel m) (hdownne m hm1 (by omega))]
        rfl
    have huplen : upPos ed.lines.length ed.sel ed.lines.length = ed.sel := by
      rw [upPos_mod _ _ hlen hsel _ (Nat.le_refl _), Nat.sub_self, Nat.add_zero,
        Nat.mod_eq_of_lt hsel]
    have hupeq : ∀ m, 1 ≤ m → m < ed.lines.length →
        upPos ed.lines.length ed.sel m
          = downPos ed.lines.length ed.sel (ed.lines.length - m) := by
      intro m h1 h2
      rw [upPos_mod _ _ hlen hsel _ (by omega), downPos_mod _ _ hsel]
    have hnu : nearestActionableUp ed.lines ed.sel = some ed.lines.length := by
      apply nearestGo_intro _ ed.lines.length 1 ed.lines.length (by omega) (by omega)
      · show (!(ed.lines.getD (upPos ed.lines.length ed.sel ed.lines.length)
          RebaseEditor.dflt).isComment) = true
        rw [huplen, hcur]
        rfl
      · intro m hm1 hm2
        show (!(ed.lines.getD (upPos ed.lines.length ed.sel m)
          RebaseEditor.dflt).isComment) = false
        rw [hupeq m hm1 (by omega)]
        rw [hother _ (downPos_lt _ _ hlen hsel _)
          (hdownne _ (by omega) (by omega))]
        rfl
    constructor
    · rw [swap_down_spec ed, hnd]
      show RebaseEditor.listSwap ed.lines ed.sel
        (downPos ed.lines.length ed.sel ed.lines.length) = ed.lines
      rw [hdownlen]
      exact listSwap_self ed.lines ed.sel hsel
    · rw [swap_up_spec ed, hnu]
      show RebaseEditor.listSwap ed.lines ed.sel
        (upPos ed.lines.length ed.sel ed.lines.length) = ed.lines
      rw [huplen]
      exact listSwap_self ed.lines ed.sel hsel

/-- Witness for the swap claim: on a concrete document with the cursor on an
actionable line, the swap target exists in both directions. -/
theorem claim5_swap_witness :
    (nearestActionableDown (RebaseEditor.new "# a\npick x\n# b\npick y").lines
      (RebaseEditor.new "# a\npick x\n# b\npick y").sel).isSome = true :=
  ((claim5_swap (RebaseEditor.new "# a\npick x\n# b\npick y")).1 (by decide)).1

/-- Claim C6: on a document with at least two actionable lines and the cursor
on an actionable line, swap toward next followed by swap toward previous with
no intervening mutation restores the original line order (the cursor is not
required to return to its initial position). -/
theorem claim6_swap_inverse (ed : RebaseEditor)
    (hcur : (ed.lines.getD ed.sel RebaseEditor.dflt).isComment = false)
    (h2 : 2 ≤ countActionable ed.lines) :
    (ed.swap_down.swap_up).lines = ed.lines := by
  have hsel := sel_lt_of_cursor_actionable ed hcur
  have hlen : 0 < ed.lines.length := by omega
  have hexists : ∃ j, j < ed.lines.length ∧ j ≠ ed.sel ∧
      (ed.lines.getD j RebaseEditor.dflt).isComment = false := by
    by_contra hno
    push_neg at hno
    have hother : ∀ j, j < ed.lines.length → j ≠ ed.sel →
        (ed.lines.getD j RebaseEditor.dflt).isComment = true := by
      intro j hj hjs
      have hne := hno j hj hjs
      cases hq : (ed.lines.getD j RebaseEditor.dflt).isComment
      · exact absurd hq hne
      · rfl
    have := countActionable_le_one ed.lines ed.sel hother
    omega
  obtain ⟨j, hj, hjs, hja⟩ := hexists
  have hmemj : ed.lines.getD j RebaseEditor.dflt ∈ ed.lines := by
    rw [List.getD_eq_getElem ed.lines _ hj]
    exact List.getElem_mem hj
  obtain ⟨k, hk⟩ := Option.isSome_iff_exists.mp
    (nearestDown_isSome ed hsel _ hmemj hja)
  obtain ⟨hpk, hk1, hkb, hmin⟩ := nearestGo_eq_some _ _ _ _ hk
  obtain ⟨m, hm1, hm2, hm3⟩ := downPos_surj ed.lines.length ed.sel hsel j hj
  have hmlt : m < ed.lines.length := by
    by_contra hge
    have hmeq : m = ed.lines.length := by omega
    rw [hmeq] at hm3
    have hds : downPos ed.lines.length ed.sel ed.lines.length = ed.sel := by
      rw [downPos_mod _ _ hsel, Nat.add_mod_right, Nat.mod_eq_of_lt hsel]
    rw [hds] at hm3
    exact hjs hm3.symm
  have hpredm : (!(ed.lines.getD (downPos ed.lines.length ed.sel m)
      RebaseEditor.dflt).isComment) = true := by
    rw [hm3, hja]
    rfl
  have hklt : k < ed.lines.length := by
    by_contra hge
    have hmk : m < k := by omega
    have hf := hmin m hm1 hmk
    rw [hpredm] at hf
    cases hf
  have htlt : downPos ed.lines.length ed.sel k < ed.lines.length :=
    downPos_lt _ _ hlen hsel k
  have htne : downPos ed.lines.length ed.sel k ≠ ed.sel := by
    intro heq
    apply downPos_injOn ed.lines.length ed.sel hsel
      (show (0 : Nat) < k by omega) (by omega)
    show downPos _ _ 0 = downPos _ _ k
    rw [show downPos ed.lines.length ed.sel 0 = ed.sel from rfl, heq]
  have hsd : ed.swap_down
      = ⟨RebaseEditor.listSwap ed.lines ed.sel (downPos ed.lines.length ed.sel k),
         some (downPos ed.lines.length ed.sel k)⟩ := by
    rw [swap_down_spec ed, hk]
  have hL1len : (RebaseEditor.listSwap ed.lines ed.sel
      (downPos ed.lines.length ed.sel k)).length = ed.lines.length :=
    listSwap_length _ _ _
  have hnu : nearestActionableUp ed.swap_down.lines ed.swap_down.sel = some k := by
    rw [hsd]
    show nearestActionableUp
      (RebaseEditor.listSwap ed.lines ed.sel (downPos ed.lines.length ed.sel k))
      (downPos ed.lines.length ed.sel k) = some k
    unfold nearestActionableUp
    rw [hL1len]
    apply nearestGo_intro _ ed.lines.length 1 k hk1 (by omega)
    · show (!((RebaseEditor.listSwap ed.lines ed.sel
        (downPos ed.lines.length ed.sel k)).getD
          (upPos ed.lines.length (downPos ed.lines.length ed.sel k) k)
          RebaseEditor.dflt).isComment) = true
      rw [upPos_downPos ed.lines.length ed.sel k hlen hsel k (Nat.le_refl _),
        Nat.sub_self,
        show downPos ed.lines.length ed.sel 0 = ed.sel from rfl,
        listSwap_getD ed.lines ed.sel _ ed.sel hsel htlt,
        if_neg (fun hx => htne hx.symm), if_pos rfl]
      exact hpk
    · intro m2 hm21 hm22
      show (!((RebaseEditor.listSwap ed.lines ed.sel
        (downPos ed.lines.length ed.sel k)).getD
          (upPos ed.lines.length (downPos ed.lines.length ed.sel k) m2)
          RebaseEditor.dflt).isComment) = false
      rw [upPos_downPos ed.lines.length ed.sel k hlen hsel m2 (by omega)]
      have hd1 : 1 ≤ k - m2 := by omega
      have hd2 : k - m2 < k := by omega
      have hdne_s : downPos ed.lines.length ed.sel (k - m2) ≠ ed.sel := by
        intro heq
        apply downPos_injOn ed.lines.length ed.sel hsel
          (show (0 : Nat) < k - m2 by omega) (by omega)
        show downPos _ _ 0 = downPos _ _ (k - m2)
        rw [show downPos ed.lines.length ed.sel 0 = ed.sel from rfl, heq]
      have hdne_t : downPos ed.lines.length ed.sel (k - m2)
          ≠ downPos ed.lines.length ed.sel k :=
        downPos_injOn ed.lines.length ed.sel hsel hd2 (by omega)
      rw [listSwap_getD ed.lines ed.sel _ _ hsel htlt, if_neg hdne_t, if_neg hdne_s]
      have hf := hmin (k - m2) hd1 hd2
      cases hq : (ed.lines.getD (downPos ed.lines.length ed.sel (k - m2))
          RebaseEditor.dflt).isComment
      · rw [hq] at hf
        cases hf
      · rfl
  have hsu : ed.swap_down.swap_up
      = ⟨RebaseEditor.listSwap ed.swap_down.lines ed.swap_down.sel
           (upPos ed.swap_down.lines.length ed.swap_down.sel k),
         some (upPos ed.swap_down.lines.length ed.swap_down.sel k)⟩ := by
    rw [swap_up_spec ed.swap_down, hnu]
  rw [hsu]
  show RebaseEditor.listSwap ed.swap_down.lines ed.swap_down.sel
    (upPos ed.swap_down.lines.length ed.swap_down.sel k) = ed.lines
  rw [hsd]
  show RebaseEditor.listSwap
    (RebaseEditor.listSwap ed.lines ed.sel (downPos ed.lines.length ed.sel k))
    (downPos ed.lines.length ed.sel k)
    (upPos (RebaseEditor.listSwap ed.lines ed.sel
      (downPos ed.lines.length ed.sel k)).length
      (downPos ed.lines.length ed.sel k) k) = ed.lines
  rw [hL1len, upPos_downPos ed.lines.length ed.sel k hlen hsel k (Nat.le_refl _),
    Nat.sub_self,
    show downPos ed.lines.length ed.sel 0 = ed.sel from rfl]
  exact listSwap_invol ed.lines ed.sel _ hsel htlt

/-- Witness for the swap inverse law on a concrete document with two
actionable lines separated by comments. -/
theorem claim6_swap_inverse_witness :
    (((RebaseEditor.new "# a\npick x\n# b\npick y").swap_down).swap_up).lines
      = (RebaseEditor.new "# a\npick x\n# b\npick y").lines :=
  claim6_swap_inverse (RebaseEditor.new "# a\npick x\n# b\npick y")
    (by decide) (by decide)

/-! Lemmas about the initial-selection search of RebaseEditor::new. -/

theorem positionIdx_none (p : RebaseTodoLine → Bool) (l : List RebaseTodoLine)
    (h : ∀ a ∈ l, p a = false) : RebaseEditor.positionIdx p l = none := by
  induction l with
  | nil => rfl
  | cons a t ih =>
    show (if p a then some 0 else (RebaseEditor.positionIdx p t).map (· + 1)) = none
    rw [if_neg (by rw [h a (by simp)]; exact Bool.false_ne_true),
      ih (fun x hx => h x (by simp [hx]))]
    rfl

theorem positionIdx_some (p : RebaseTodoLine → Bool) (l : List RebaseTodoLine)
    (i : Nat) (hi : i < l.length) (hp : p (l.getD i RebaseEditor.dflt) = true)
    (hmin : ∀ jj, jj < i → p (l.getD jj RebaseEditor.dflt) = false) :
    RebaseEditor.positionIdx p l = some i := by
  induction l generalizing i with
  | nil => simp at hi
  | cons a t ih =>
    show (if p a then some 0 else (RebaseEditor.positionIdx p t).map (· + 1)) = some i
    cases i with
    | zero =>
      rw [if_pos (by
        rw [show ((a :: t).getD 0 RebaseEditor.dflt) = a from rfl] at hp
        exact hp)]
    | succ i2 =>
      have ha : p a = false := by
        have := hmin 0 (by omega)
        rw [show ((a :: t).getD 0 RebaseEditor.dflt) = a from rfl] at this
        exact this
      rw [if_neg (by rw [ha]; exact Bool.false_ne_true)]
      rw [ih i2 (by simpa using hi)
        (by rw [show (t.getD i2 RebaseEditor.dflt)
            = ((a :: t).getD (i2 + 1) RebaseEditor.dflt) from rfl]
            exact hp)
        (by intro jj hjj
            have := hmin (jj + 1) (by omega)
            rw [show ((a :: t).getD (jj + 1) RebaseEditor.dflt)
              = t.getD jj RebaseEditor.dflt from rfl] at this
            exact this)]
      rfl

/-- Claim C9: construction always produces a selection; it is the index of
the first non-Comment line of the parsed document, and zero when every line
is a Comment or the document is empty; in a nonempty all-Comment document the
cursor therefore initially rests on a Comment line. -/
theorem claim9_initial_selection (content : String) :
    (∃ i, (RebaseEditor.new content).selected? = some i)
    ∧ ((∀ l ∈ (RebaseEditor.new content).lines, l.isComment = true) →
        (RebaseEditor.new content).selected? = some 0)
    ∧ (∀ i, i < (RebaseEditor.new content).lines.length →
        ((RebaseEditor.new content).lines.getD i RebaseEditor.dflt).isComment
          = false →
        (∀ jj, jj < i →
          ((RebaseEditor.new content).lines.getD jj RebaseEditor.dflt).isComment
            = true) →
        (RebaseEditor.new content).selected? = some i)
    ∧ ((RebaseEditor.new content).lines ≠ [] →
        (∀ l ∈ (RebaseEditor.new content).lines, l.isComment = true) →
        ((RebaseEditor.new content).lines.getD ((RebaseEditor.new content).sel)
          RebaseEditor.dflt).isComment = true) := by
  refine ⟨⟨_, rfl⟩, ?_, ?_, ?_⟩
  · intro hall
    show some ((RebaseEditor.positionIdx (fun l => !l.isComment)
      ((RebaseEditor.new content).lines)).getD 0) = some 0
    rw [positionIdx_none _ _ (by
      intro a ha
      rw [hall a ha]
      rfl)]
    rfl
  · intro i hi hia hmin
    show some ((RebaseEditor.positionIdx (fun l => !l.isComment)
      ((RebaseEditor.new content).lines)).getD 0) = some i
    rw [positionIdx_some _ _ i hi (by rw [hia]; rfl)
      (by intro jj hjj; rw [hmin jj hjj]; rfl)]
    rfl
  · intro hne hall
    have hz : (RebaseEditor.new content).selected? = some 0 := by
      show some ((RebaseEditor.positionIdx (fun l => !l.isComment)
        ((RebaseEditor.new content).lines)).getD 0) = some 0
      rw [positionIdx_none _ _ (by
        intro a ha
        rw [hall a ha]
        rfl)]
      rfl
    have hsel0 : (RebaseEditor.new content).sel = 0 := by
      show ((RebaseEditor.new content).selected?).getD 0 = 0
      rw [hz]
      rfl
    rw [hsel0]
    apply getD_comment_of_all _ hall

/-- Witness: a comment followed by a pick line initially selects index one,
obtained through the first-non-Comment clause of the theorem. -/
theorem claim9_initial_selection_witness :
    (RebaseEditor.new "# a\npick x").selected? = some 1 :=
  (claim9_initial_selection "# a\npick x").2.2.1 1 (by decide) (by decide)
    (by decide)

/-- Claim C10: set_current_line writes through an unchecked index, so a
selection at or past the end of the line vector is the out-of-bounds (panic)
branch, modelled as none; whenever get_current_line returns a line the write
is in bounds; and every action-key dispatch of the session loop, which is
guarded by the current line resolving to a commit, never reaches the
out-of-bounds branch. -/
theorem claim10_set_current_guarded (ed : RebaseEditor) (l : RebaseTodoLine)
    (k : ActionKey) :
    (ed.lines.length ≤ ed.sel → ed.set_current_line l = none)
    ∧ ((ed.get_current_line).isSome = true →
        (ed.set_current_line l).isSome = true)
    ∧ (applyActionKey k ed).isSome = true := by
  refine ⟨?_, ?_, ?_⟩
  · intro h
    unfold RebaseEditor.set_current_line
    rw [if_neg (by omega)]
  · intro h
    have hlt : ed.sel < ed.lines.length := by
      unfold RebaseEditor.get_current_line at h
      by_contra hge
      rw [List.get?_eq_none.mpr (by omega)] at h
      cases h
    unfold RebaseEditor.set_current_line
    rw [if_pos hlt]
    rfl
  · unfold applyActionKey
    cases hc : (ed.get_current_line).bind RebaseTodoLine.get_commit with
    | none => rfl
    | some c =>
      have hcur : (ed.get_current_line).isSome = true := by
        cases hg : ed.get_current_line with
        | none => rw [hg] at hc; cases hc
        | some _ => rfl
      have hlt : ed.sel < ed.lines.length := by
        unfold RebaseEditor.get_current_line at hcur
        by_contra hge
        rw [List.get?_eq_none.mpr (by omega)] at hcur
        cases hcur
      show (ed.set_current_line _).isSome = true
      unfold RebaseEditor.set_current_line
      rw [if_pos hlt]
      rfl

/-- Witness: the guarded write succeeds on a one-line document, and the
unchecked write on an empty document is the out-of-bounds branch. -/
theorem claim10_set_current_guarded_witness :
    (RebaseEditor.set_current_line ⟨[], some 0⟩ (.Comment "") = none)
    ∧ (applyActionKey .p ⟨[.Pick "a" []], some 0⟩).isSome = true :=
  ⟨(claim10_set_current_guarded ⟨[], some 0⟩ (.Comment "") .p).1 (by decide),
   (claim10_set_current_guarded ⟨[.Pick "a" []], some 0⟩ (.Comment "") .p).2.2⟩

/-- Claim C7 counterexample: with the cursor on a commit-carrying line,
pressing the r key constructs the Reword variant (as the editor.rs match arm
and the on-screen instructions specify), not the Reset variant the claim
names. -/
theorem claim7_action_keys_cex :
    applyActionKey .r ⟨[.Pick "abc" []], some 0⟩
      = some ⟨[.Reword "abc" []], some 0⟩
    ∧ applyActionKey .r ⟨[.Pick "abc" []], some 0⟩
      ≠ some ⟨[.Reset "abc" []], some 0⟩ :=
  ⟨by decide, by decide⟩

/-- Claim C7 (amended): while editing, an action key replaces the current
line with its variant (p to Pick, e to Edit, r to Reword, s to Squash, f to
Fixup, d to Drop) reusing the current line's commit identifier and trailing
rest tokens, leaving the selection unchanged; when the current line carries
no commit identifier every action key leaves the editor unchanged. -/
theorem claim7_action_keys (ed : RebaseEditor) :
    (∀ c, ((ed.get_current_line).bind RebaseTodoLine.get_commit) = some c →
      (applyActionKey .p ed
          = some ⟨ed.lines.set ed.sel
              (.Pick c (((ed.get_current_line).bind RebaseTodoLine.get_rest).getD [])),
            ed.selected?⟩
        ∧ applyActionKey .e ed
          = some ⟨ed.lines.set ed.sel
              (.Edit c (((ed.get_current_line).bind RebaseTodoLine.get_rest).getD [])),
            ed.selected?⟩
        ∧ applyActionKey .r ed
          = some ⟨ed.lines.set ed.sel
              (.Reword c (((ed.get_current_line).bind RebaseTodoLine.get_rest).getD [])),
            ed.selected?⟩
        ∧ applyActionKey .s ed
          = some ⟨ed.lines.set ed.sel
              (.Squash c (((ed.get_current_line).bind RebaseTodoLine.get_rest).getD [])),
            ed.selected?⟩
        ∧ applyActionKey .f ed
          = some ⟨ed.lines.set ed.sel
              (.Fixup c (((ed.get_current_line).bind RebaseTodoLine.get_rest).getD [])),
            ed.selected?⟩
        ∧ applyActionKey .d ed
          = some ⟨ed.lines.set ed.sel
              (.Drop c (((ed.get_current_line).bind RebaseTodoLine.get_rest).getD [])),
            ed.selected?⟩))
    ∧ (((ed.get_current_line).bind RebaseTodoLine.get_commit) = none →
        ∀ k, applyActionKey k ed = some ed) := by
  constructor
  · intro c hc
    have hlt : ed.sel < ed.lines.length := by
      have hcur : (ed.get_current_line).isSome = true := by
        cases hg : ed.get_current_line with
        | none => rw [hg] at hc; cases hc
        | some _ => rfl
      unfold RebaseEditor.get_current_line at hcur
      by_contra hge
      rw [List.get?_eq_none.mpr (by omega)] at hcur
      cases hcur
    have hset : ∀ ln, ed.set_current_line ln
        = some ⟨ed.lines.set ed.sel ln, ed.selected?⟩ := by
      intro ln
      unfold RebaseEditor.set_current_line
      rw [if_pos hlt]
    refine ⟨?_, ?_, ?_, ?_, ?_, ?_⟩ <;>
      · unfold applyActionKey
        rw [hc]
        exact hset _
  · intro hn k
    unfold applyActionKey
    rw [hn]

/-- Witness: pressing s on a pick line carrying a rest token yields the
Squash variant with the same commit and rest. -/
theorem claim7_action_keys_witness :
    applyActionKey .s ⟨[.Pick "abc" ["x"]], some 0⟩
      = some ⟨[.Squash "abc" ["x"]], some 0⟩ := by
  have h := (claim7_action_keys ⟨[.Pick "abc" ["x"]], some 0⟩).1 "abc" (by decide)
  exact h.2.2.2.1

/-! Lemmas relating the newline join of save to the line splitter. -/

theorem splitNL_no_nl (l : List Char) (h : ('\n' : Char) ∉ l) :
    splitNL l = [l] := by
  induction l with
  | nil => rfl
  | cons c t ih =>
    have hc : c ≠ '\n' := by
      intro hx
      exact h (by simp [hx])
    have ht : ('\n' : Char) ∉ t := fun hx => h (by simp [hx])
    rw [show splitNL (c :: t)
        = (if c = '\n' then [] :: splitNL t
           else match splitNL t with
             | [] => [[c]]
             | w :: ws => (c :: w) :: ws) from rfl,
      if_neg hc, ih ht]

theorem splitNL_append (l r : List Char) (h : ('\n' : Char) ∉ l) :
    splitNL (l ++ '\n' :: r) = l :: splitNL r := by
  induction l with
  | nil =>
    show splitNL ('\n' :: r) = [] :: splitNL r
    rw [show splitNL ('\n' :: r)
        = (if '\n' = '\n' then [] :: splitNL r
           else match splitNL r with
             | [] => [['\n']]
             | w :: ws => ('\n' :: w) :: ws) from rfl,
      if_pos rfl]
  | cons c t ih =>
    have hc : c ≠ '\n' := by
      intro hx
      exact h (by simp [hx])
    have ht : ('\n' : Char) ∉ t := fun hx => h (by simp [hx])
    show splitNL (c :: (t ++ '\n' :: r)) = (c :: t) :: splitNL r
    rw [show splitNL (c :: (t ++ '\n' :: r))
        = (if c = '\n' then [] :: splitNL (t ++ '\n' :: r)
           else match splitNL (t ++ '\n' :: r) with
             | [] => [[c]]
             | w :: ws => (c :: w) :: ws) from rfl,
      if_neg hc, ih ht]

theorem joinNL_data_split (ss : List String) (hne : ss ≠ [])
    (h : ∀ s ∈ ss, ('\n' : Char) ∉ s.data) :
    splitNL (joinNL ss).data = ss.map String.data := by
  induction ss with
  | nil => exact absurd rfl hne
  | cons s rest ih =>
    cases rest with
    | nil =>
      show splitNL s.data = [s.data]
      exact splitNL_no_nl _ (h s (by simp))
    | cons b t =>
      show splitNL (s ++ "\n" ++ joinNL (b :: t)).data
        = s.data :: (b :: t).map String.data
      rw [data_append, data_append,
        show (s.data ++ ("\n" : String).data) ++ (joinNL (b :: t)).data
          = s.data ++ '\n' :: (joinNL (b :: t)).data by simp,
        splitNL_append _ _ (h s (by simp)),
        ih (by simp) (fun x hx => h x (by simp [hx]))]

/-- Claim C2: the Quit action writes exactly the canonical serializations of
every document line in document order, joined by single newlines with no
trailing newline (splitting the written content on newlines recovers the
serialized lines exactly), as the concrete five-line example shows
end-to-end; the Abort action writes the empty string regardless of the
document's contents. -/
theorem claim2_save (ed : RebaseEditor) :
    RebaseEditor.save_empty ed = ""
    ∧ (ed.lines ≠ [] →
        (∀ l ∈ ed.lines, ('\n' : Char) ∉ (RebaseTodoLine.display l).data) →
        splitNL (RebaseEditor.save ed).data
          = ed.lines.map (fun l => (RebaseTodoLine.display l).data))
    ∧ RebaseEditor.save (RebaseEditor.new
        "# top comment\npick a1b2c3d\ndrop deadbeef\n\nexec echo hi\n")
      = "# top comment\npick a1b2c3d\ndrop deadbeef\n\nexec echo hi" := by
  refine ⟨rfl, ?_, by decide⟩
  intro hne hnl
  unfold RebaseEditor.save
  rw [joinNL_data_split (ed.lines.map RebaseTodoLine.display) (by simpa using hne)
    (by
      intro s hs
      obtain ⟨l, hl, rfl⟩ := List.mem_map.mp hs
      exact hnl l hl)]
  rw [List.map_map]
  rfl

/-- Witness: splitting the saved content of a concrete two-line document
recovers the two serialized lines. -/
theorem claim2_save_witness :
    splitNL (RebaseEditor.save (RebaseEditor.new "pick a\n# c\n")).data
      = (RebaseEditor.new "pick a\n# c\n").lines.map
          (fun l => (RebaseTodoLine.display l).data) :=
  (claim2_save (RebaseEditor.new "pick a\n# c\n")).2.1 (by decide) (by decide)

end Glitt
